import Mathlib

/-!
Verification of the subject-resolution and spreadsheet-merge core of the
`univer` application (`app.py`).

Python strings are modelled as `List Char` (sequences of code points), with
executable translations of the Python primitives the code uses
(`str.strip`, `str.lower`, substring `in`, `str.split`).  Spreadsheet
worksheets are modelled as total functions from (row, column) to cell
values together with a `maxRow` bound; Python/openpyxl truthiness of cell
values is modelled explicitly.  The external catalog adapters
(`search_rmebrk_results`, `search_urait_multiple_results`,
`fetch_iprbookshop_reader`) appear as parameters: a value of type
`Except Str (List Resource)` (possible exception / returned candidate
list) or `Option Resource`, exactly as they are consumed at their call
sites in `fetch_links_for_subject`.
-/

/-- Python strings are sequences of code points. -/
abbrev Str := List Char

/-- The characters stripped by Python `str.strip()` (ASCII whitespace). -/
def pyIsSpace (c : Char) : Bool :=
  c = ' ' || c = '\t' || c = '\n' || c = '\r' || c = '\x0b' || c = '\x0c'

/-- Python `str.strip()`: drop leading and trailing whitespace. -/
def pyStrip (s : Str) : Str :=
  ((s.dropWhile pyIsSpace).reverse.dropWhile pyIsSpace).reverse

/-- Python `str.lower()` restricted to the alphabets occurring in the
program: ASCII letters and Russian Cyrillic (А..Я and Ё). -/
def pyLowerChar (c : Char) : Char :=
  if 'A' ≤ c ∧ c ≤ 'Z' then Char.ofNat (c.toNat + 32)
  else if 'А' ≤ c ∧ c ≤ 'Я' then Char.ofNat (c.toNat + 32)
  else if c = 'Ё' then 'ё'
  else c

/-- Python `str.lower()` on a whole string. -/
def pyLower (s : Str) : Str := s.map pyLowerChar

/-- Embedding of `normalize_subject` (app.py:1990): `value.strip().lower()`. -/
def normalize_subject (s : Str) : Str := pyLower (pyStrip s)

/-- Decidable prefix test on strings (`needle` starts `hay`). -/
def isPrefixB : Str → Str → Bool
  | [], _ => true
  | _ :: _, [] => false
  | a :: as, b :: bs => if a = b then isPrefixB as bs else false

/-- Python substring containment `needle in hay`. -/
def pyContains (hay needle : Str) : Bool :=
  match hay with
  | [] => isPrefixB needle []
  | _ :: t => isPrefixB needle hay || pyContains t needle

/-- The worker of Python `s.split(sep)`, structurally recursive on an
explicit fuel that bounds the input length (each recursive call strictly
shortens the string, and the fuel matches the initial length, so the
fuel-exhausted case is never reached). -/
def splitSubGo (sep : Str) : Nat → Str → List Str
  | _, [] => [[]]
  | 0, s => [s]
  | fuel + 1, c :: t =>
    if sep ≠ [] ∧ isPrefixB sep (c :: t) = true then
      [] :: splitSubGo sep fuel (List.drop sep.length (c :: t))
    else
      match splitSubGo sep fuel t with
      | [] => [[c]]
      | u :: us => (c :: u) :: us

/-- Python `s.split(sep)` for a non-empty separator: split at the
left-to-right non-overlapping occurrences of `sep`. -/
def splitSub (sep : Str) (s : Str) : List Str := splitSubGo sep s.length s

/-- Python `s.split()` (no argument): split on whitespace runs,
discarding empty pieces.  `cur` accumulates the current word reversed. -/
def pySplitWsGo : Str → Str → List Str
  | [], cur => if cur = [] then [] else [cur.reverse]
  | c :: t, cur =>
    if pyIsSpace c then
      if cur = [] then pySplitWsGo t [] else cur.reverse :: pySplitWsGo t []
    else pySplitWsGo t (c :: cur)

/-- Python `s.split()` with no argument. -/
def pySplitWs (s : Str) : List Str := pySplitWsGo s []

/-- Last character of a string, with a dummy default for the empty string. -/
def lastCharD (s : Str) : Char := s.getLastD '?'

theorem isPrefixB_append_self (s t : Str) : isPrefixB s (s ++ t) = true := by
  induction s with
  | nil => rfl
  | cons a as ih => simp [isPrefixB, ih]

theorem pyContains_append_left (x y n : Str) (h : pyContains y n = true) :
    pyContains (x ++ y) n = true := by
  induction x with
  | nil => simpa using h
  | cons c x' ih => simp [pyContains, ih]

theorem pyContains_self_append (s t : Str) : pyContains (s ++ t) s = true := by
  cases s with
  | nil => cases t with
    | nil => rfl
    | cons c t' => simp [pyContains, isPrefixB]
  | cons c s' =>
    have h1 : isPrefixB (c :: s') ((c :: s') ++ t) = true := isPrefixB_append_self _ _
    simp only [List.cons_append] at h1
    simp [pyContains, h1]

theorem isPrefixB_eq_append (p : Str) : ∀ s : Str, isPrefixB p s = true →
    s = p ++ List.drop p.length s := by
  induction p with
  | nil => intro s _; simp
  | cons a p' ih =>
    intro s hp
    cases s with
    | nil => simp [isPrefixB] at hp
    | cons b s' =>
      simp only [isPrefixB] at hp
      split at hp
      · rename_i hab
        subst hab
        have := ih s' hp
        simp only [List.length_cons, List.cons_append, List.drop_succ_cons]
        exact congrArg (a :: ·) this
      · exact absurd hp (by simp)

theorem getLastD_irrel {α : Type} (l : List α) (a b : α) (h : l ≠ []) :
    l.getLastD a = l.getLastD b := by
  cases l with
  | nil => exact absurd rfl h
  | cons x xs => simp only [List.getLastD_cons]

theorem lastCharD_append (a b : Str) (h : b ≠ []) :
    lastCharD (a ++ b) = lastCharD b := by
  unfold lastCharD
  induction a with
  | nil => rfl
  | cons c a' ih =>
    rw [List.cons_append, List.getLastD_cons,
      getLastD_irrel (a' ++ b) c '?'
        (by intro hx; exact h (List.append_eq_nil.mp hx).2)]
    exact ih

theorem lastCharD_cons (c : Char) (t : Str) (h : t ≠ []) :
    lastCharD (c :: t) = lastCharD t := by
  have := lastCharD_append [c] t h
  simpa using this

theorem splitSubGo_ne_nil (sep : Str) (fuel : Nat) (s : Str) :
    splitSubGo sep fuel s ≠ [] := by
  cases s with
  | nil => cases fuel <;> simp [splitSubGo]
  | cons c t =>
    cases fuel with
    | zero => simp [splitSubGo]
    | succ fuel =>
      rw [splitSubGo]
      split
      · simp
      · split <;> simp

theorem splitSub_ne_nil (sep s : Str) : splitSub sep s ≠ [] :=
  splitSubGo_ne_nil sep s.length s

/-- The last piece of a Python `split` either witnesses that the input
ended with the separator's final character (a space, for the `" / "`
separator), or is non-empty and ends with the input's final character. -/
theorem splitSubGo_last_spec (sep : Str) (hsepLast : lastCharD sep = ' ') :
    ∀ fuel (s : Str), s.length ≤ fuel →
      s = [] ∨ lastCharD s = ' ' ∨
      ((splitSubGo sep fuel s).getLastD [] ≠ [] ∧
        lastCharD ((splitSubGo sep fuel s).getLastD []) = lastCharD s) := by
  intro fuel
  induction fuel with
  | zero =>
    intro s hlen
    left
    exact List.length_eq_zero.mp (Nat.le_zero.mp hlen)
  | succ n ih =>
    intro s hlen
    cases s with
    | nil => left; rfl
    | cons c t =>
      simp only [splitSubGo]
      split
      · rename_i hpre
        have hsplit : (c :: t) = sep ++ List.drop sep.length (c :: t) :=
          isPrefixB_eq_append sep (c :: t) hpre.2
        cases hd : List.drop sep.length (c :: t) with
        | nil =>
          right; left
          rw [hd, List.append_nil] at hsplit
          rw [hsplit, hsepLast]
        | cons d ds =>
          have hlen' : (List.drop sep.length (c :: t)).length ≤ n := by
            have h1 : 1 ≤ sep.length := by
              cases hs : sep with
              | nil => exact absurd hs hpre.1
              | cons a l => simp
            simp only [List.length_drop, List.length_cons]
            simp only [List.length_cons] at hlen
            omega
          have hne : List.drop sep.length (c :: t) ≠ [] := by rw [hd]; simp
          have hlast : lastCharD (c :: t) =
              lastCharD (List.drop sep.length (c :: t)) := by
            conv_lhs => rw [hsplit]
            exact lastCharD_append sep _ hne
          rcases ih (List.drop sep.length (c :: t)) hlen' with h1 | h2 | h3
          · exact absurd h1 hne
          · right; left; rw [hlast]; exact h2
          · right; right
            rw [List.getLastD_cons, hlast, hd]
            rw [hd] at h3
            exact h3
      · cases hsp : splitSubGo sep n t with
        | nil => exact absurd hsp (splitSubGo_ne_nil sep n t)
        | cons u us =>
          dsimp only
          have hlen' : t.length ≤ n := by
            simp only [List.length_cons] at hlen; omega
          cases hus : us with
          | nil =>
            by_cases ht0 : t = []
            · right; right
              subst ht0
              have h0 : splitSubGo sep n ([] : Str) = [[]] := by
                cases n <;> rfl
              rw [h0] at hsp
              injection hsp with hu hus2
              subst hu
              constructor
              · simp
              · simp [lastCharD]
            · rcases ih t hlen' with h1 | h2 | h3
              · exact absurd h1 ht0
              · right; left
                rw [lastCharD_cons c t ht0]
                exact h2
              · right; right
                rw [hsp, hus] at h3
                simp only [List.getLastD_cons, List.getLastD_nil] at h3 ⊢
                constructor
                · simp
                · rw [lastCharD_cons c u h3.1, h3.2, lastCharD_cons c t ht0]
          | cons v vs =>
            have ht0 : t ≠ [] := by
              intro h0
              rw [h0] at hsp
              rw [show splitSubGo sep n ([] : Str) = [[]] from by
                cases n <;> rfl] at hsp
              rw [hus] at hsp
              exact absurd hsp.symm (by simp)
            have heq : ((c :: u) :: v :: vs).getLastD ([] : Str) =
                (splitSubGo sep n t).getLastD [] := by
              rw [hsp, hus]
              simp only [List.getLastD_cons]
            rcases ih t hlen' with h1 | h2 | h3
            · exact absurd h1 ht0
            · right; left
              rw [lastCharD_cons c t ht0]
              exact h2
            · right; right
              rw [heq, lastCharD_cons c t ht0]
              exact h3

theorem dropWhile_headD_not {α : Type} (p : α → Bool) (l : List α) (d : α)
    (h : l.dropWhile p ≠ []) : p ((l.dropWhile p).headD d) = false := by
  induction l with
  | nil => simp [List.dropWhile] at h
  | cons a t ih =>
    cases hpa : p a with
    | true =>
      rw [List.dropWhile_cons_of_pos hpa] at h ⊢
      exact ih h
    | false =>
      rw [List.dropWhile_cons_of_neg (by simp [hpa])]
      simpa using hpa

theorem dropWhile_getLastD {α : Type} (p : α → Bool) (l : List α) (d : α)
    (hl : l ≠ []) (h : p (l.getLastD d) = false) :
    l.dropWhile p ≠ [] ∧ (l.dropWhile p).getLastD d = l.getLastD d := by
  induction l with
  | nil => exact absurd rfl hl
  | cons a t ih =>
    by_cases htne : t = []
    · subst htne
      have ha : p a = false := by
        simpa [List.getLastD_cons] using h
      rw [List.dropWhile_cons_of_neg (by simp [ha])]
      exact ⟨by simp, rfl⟩
    · have hlast : (a :: t).getLastD d = t.getLastD d := by
        rw [List.getLastD_cons]
        exact getLastD_irrel t a d htne
      cases hpa : p a with
      | true =>
        rw [List.dropWhile_cons_of_pos hpa]
        have h' : p (t.getLastD d) = false := by rw [← hlast]; exact h
        obtain ⟨h1, h2⟩ := ih htne h'
        exact ⟨h1, by rw [h2, hlast]⟩
      | false =>
        rw [List.dropWhile_cons_of_neg (by simp [hpa])]
        exact ⟨by simp, rfl⟩

theorem pyStrip_eq_of_last (s : Str) (hs : s ≠ [])
    (h : pyIsSpace (lastCharD s) = false) :
    pyStrip s = s.dropWhile pyIsSpace ∧ pyStrip s ≠ [] := by
  obtain ⟨h1, h2⟩ := dropWhile_getLastD pyIsSpace s '?' hs h
  unfold pyStrip
  have hrev : (s.dropWhile pyIsSpace).reverse ≠ [] := by simpa using h1
  have hhead : (s.dropWhile pyIsSpace).reverse.headD '?' =
      lastCharD (s.dropWhile pyIsSpace) := by
    rw [List.headD_eq_head?, List.head?_reverse]
    unfold lastCharD
    rw [List.getLastD_eq_getLast? ..]
  cases htr : (s.dropWhile pyIsSpace).reverse with
  | nil => exact absurd htr hrev
  | cons x xs =>
    have hx : pyIsSpace x = false := by
      have hx1 := hhead
      rw [htr] at hx1
      simp only [List.headD_cons] at hx1
      rw [hx1]
      have hx2 : lastCharD (s.dropWhile pyIsSpace) = lastCharD s := h2
      rw [hx2]
      exact h
    rw [List.dropWhile_cons_of_neg (by simp [hx]), ← htr, List.reverse_reverse]
    exact ⟨rfl, h1⟩

theorem stripped_last_not_space (s : Str) (hstrip : pyStrip s = s) (hs : s ≠ []) :
    pyIsSpace (lastCharD s) = false := by
  have hr : ((s.dropWhile pyIsSpace).reverse.dropWhile pyIsSpace).reverse = s := hstrip
  have hrne : (s.dropWhile pyIsSpace).reverse.dropWhile pyIsSpace ≠ [] := by
    intro h0
    rw [h0] at hr
    exact hs hr.symm
  have hh := dropWhile_headD_not pyIsSpace (s.dropWhile pyIsSpace).reverse '?' hrne
  have hkey : lastCharD s =
      ((s.dropWhile pyIsSpace).reverse.dropWhile pyIsSpace).headD '?' := by
    conv_lhs => rw [← hr]
    unfold lastCharD
    rw [List.getLastD_eq_getLast? .., List.getLast?_reverse, ← List.headD_eq_head?]
  rw [hkey]
  exact hh

/-- The separator used by `extract_subjects_from_up33` when merging the two
text cells and re-splitting bilingual values. -/
def sepSlash : Str := (" / ").toList

theorem splitSub_lastPart_of_stripped (s : Str)
    (hs : s ≠ []) (hlast : pyIsSpace (lastCharD s) = false) :
    pyStrip ((splitSub sepSlash s).getLastD []) ≠ [] := by
  rcases splitSubGo_last_spec sepSlash (by rfl) s.length s (Nat.le_refl _)
    with h1 | h2 | h3
  · exact absurd h1 hs
  · rw [h2] at hlast
    simp [pyIsSpace] at hlast
  · exact (pyStrip_eq_of_last _ h3.1 (by rw [h3.2]; exact hlast)).2

/-- A candidate resource as the dictionaries built by the catalog adapters
and by `fetch_links_for_subject` (keys `title`, `url`, `status`, `note`;
the extra bookkeeping keys `source` / `multiple` carried by some adapters
play no role in the verified logic and are omitted). -/
structure Resource where
  title : Str
  url : Str
  status : Str
  note : Str
deriving DecidableEq

/-- The per-subject `info` dictionary built by `fetch_links_for_subject`
(app.py:1847-1853). -/
structure Info where
  links : List Str
  primary_link : Option Str
  status : Str
  note : Str
  resources : List Resource
deriving DecidableEq

/-- One entry of `KNOWN_RESOURCE_RULES` (app.py:94-112). -/
structure ResourceRule where
  contains : List Str
  resources : List Resource
deriving DecidableEq

/-- First resource of the static rule (app.py:98-103), verbatim. -/
def fizRes1 : Resource :=
  { title := ("Веденина О.А. Самостоятельные занятия физической культурой : учебное пособие для СПО / Веденина О.А.. — Саратов, Москва : Профобразование, Ай Пи Ар Медиа, 2025.").toList,
    url := ("https://www.iprbookshop.ru/147933.html").toList,
    status := ("success").toList,
    note := ("Учебное пособие IPRbooks").toList }

/-- Second resource of the static rule (app.py:104-109), verbatim. -/
def fizRes2 : Resource :=
  { title := ("Гришина, Ю.И. Физическая культура студента: учеб. пособие. — Ростов н/Д: Феникс, 2019. — 283 c. — (Высшее образование). — ISBN 978-5-222-31286-5.").toList,
    url := ("https://rmebrk.kz/book/1177773").toList,
    status := ("warning").toList,
    note := ("Доступ на rmebrk.kz").toList }

/-- The single rule of `KNOWN_RESOURCE_RULES` (app.py:94-112). -/
def ruleFiz : ResourceRule :=
  { contains := [("физ").toList, ("культур").toList],
    resources := [fizRes1, fizRes2] }

/-- Embedding of `KNOWN_RESOURCE_RULES` (app.py:94-112).  Both configured rule
resources carry explicit `status` and `note` keys, so the `.get` defaults
of the Python code are modelled by the fields directly. -/
def KNOWN_RESOURCE_RULES : List ResourceRule := [ruleFiz]

/-- The freshly initialised `info` dictionary (app.py:1847-1853). -/
def defaultInfo : Info :=
  { links := [], primary_link := Option.none, status := ("warning").toList,
    note := [], resources := [] }

/-- Python `x or y` where `x` is `None` or a string and `y` a string:
returns `y` when `x` is falsy (`None` or the empty string). -/
def pyOrOpt (o : Option Str) (u : Str) : Option Str :=
  match o with
  | Option.none => Option.some u
  | Option.some s => if s = [] then Option.some u else Option.some s

/-- Python `a or b` for two strings. -/
def pyOrStr (a b : Str) : Str := if a = [] then b else a

/-- The resource list built from a matching static rule
(app.py:1858-1869): entries without a URL are dropped, a missing/empty
title falls back to the URL. -/
def ruleToResources (rule : ResourceRule) : List Resource :=
  rule.resources.filterMap fun res =>
    if res.url = [] then Option.none
    else Option.some
      { title := pyOrStr res.title res.url, url := res.url,
        status := res.status, note := res.note }

/-- The record returned for a subject matching a static rule
(app.py:1870-1878): fields are taken from the first rule resource; if the
rule produced no resources the untouched initial `info` is returned. -/
def overrideInfo (rule : ResourceRule) : Info :=
  match ruleToResources rule with
  | [] => defaultInfo
  | r0 :: _ =>
    let note0 := r0.note
    let note := if r0.status = ("warning").toList ∧ note0 = []
      then ("Проверьте предложенный ресурс").toList else note0
    { links := (ruleToResources rule).map Resource.url,
      primary_link := Option.some r0.url,
      status := r0.status, note := note,
      resources := ruleToResources rule }

/-- The first static rule whose tokens are all contained in the normalized
subject (the loop at app.py:1856-1857). -/
def matchedRule (norm : Str) : Option ResourceRule :=
  KNOWN_RESOURCE_RULES.find? fun rule =>
    rule.contains.all fun tok => pyContains norm tok

/-- The RMЭБ stage of `fetch_links_for_subject` (app.py:1880-1897): an
exception is swallowed; otherwise the first candidate (if any) is recorded
in `links`, `primary_link` is set only if still unset, and all candidates
are appended to `resources`. -/
def applyRmebrk (info : Info) (rm : Except Str (List Resource)) : Info :=
  match rm with
  | Except.error _ => info
  | Except.ok results =>
    match results with
    | [] => info
    | r :: _ =>
      { info with
        links := info.links ++ [r.url],
        primary_link := pyOrOpt info.primary_link r.url,
        status := ("success").toList,
        note := ("Найдено на RMЭБ").toList,
        resources := info.resources ++ results }

/-- The Юрайт stage (app.py:1899-1916): an exception sets `status = error`
with an explanatory note; a non-empty result unconditionally overwrites
`primary_link` with the first candidate's URL. -/
def applyUrait (info : Info) (ur : Except Str (List Resource)) : Info :=
  match ur with
  | Except.error msg =>
    { info with
      status := ("error").toList,
      note := ("Ошибка urait: ").toList ++ msg }
  | Except.ok [] => info
  | Except.ok (r :: _) =>
    { info with
      links := info.links ++ [r.url],
      resources := info.resources ++ [r],
      primary_link := Option.some r.url,
      status := ("success").toList,
      note := ("Найдено на Юрайт").toList }

/-- The IPRbooks stage (app.py:1918-1932): `fetch_iprbookshop_reader`
never raises (it catches everything, app.py:1363-1374), so the stage input
is an optional single candidate. -/
def applyIpr (info : Info) (ipr : Option Resource) : Info :=
  match ipr with
  | Option.none => info
  | Option.some r =>
    let res : Resource :=
      { title := r.title, url := r.url, status := r.status,
        note := ("IPRbooks - ").toList ++ r.note }
    { info with
      links := info.links ++ [r.url],
      resources := info.resources ++ [res],
      primary_link := pyOrOpt info.primary_link r.url,
      status := r.status,
      note := pyOrStr info.note ("Найдено на IPRbooks").toList }

/-- The final dedup pass (app.py:1934-1943): walk `resources`, dropping
entries whose URL is empty or already seen; returns the resulting `links`
and `resources`. -/
def dedupResources : List Resource → List Str → List Str × List Resource
  | [], _ => ([], [])
  | r :: rest, seen =>
    if r.url = [] ∨ r.url ∈ seen then dedupResources rest seen
    else
      let p := dedupResources rest (r.url :: seen)
      (r.url :: p.1, r :: p.2)

/-- Finalization of the network path (app.py:1934-1949): dedup by URL and
fill in a note for an error record without links. -/
def finalizeInfo (info : Info) : Info :=
  let p := dedupResources info.resources []
  let info1 : Info := { info with links := p.1, resources := p.2 }
  if info1.status = ("error").toList ∧ p.1 = [] then
    { info1 with note := pyOrStr info1.note ("Ссылки не найдены").toList }
  else info1

/-- Embedding of `fetch_links_for_subject` (app.py:1846-1951).  The three catalog
adapters are parameters: `rm` and `ur` model the guarded calls to
`search_rmebrk_results` and `search_urait_multiple_results` (which may in
principle raise, hence `Except`), `ipr` the never-raising
`fetch_iprbookshop_reader`. -/
def fetch_links_for_subject (rm ur : Except Str (List Resource))
    (ipr : Option Resource) (subject : Str) : Info :=
  match matchedRule (normalize_subject subject) with
  | Option.some rule => overrideInfo rule
  | Option.none =>
    finalizeInfo (applyIpr (applyUrait (applyRmebrk defaultInfo rm) ur) ipr)

/-- Header-marker tokens skipped by the extractor (app.py:157). -/
def header_tokens : List Str :=
  [("наимен").toList, ("предмет").toList, ("дисциплин").toList]

/-- Embedding of `SUBJECT_EXCLUDE_SUBSTRINGS` (app.py:74-90), verbatim. -/
def SUBJECT_EXCLUDE_SUBSTRINGS : List Str :=
  [("учебная нагрузка").toList, ("учебн").toList, ("семинар").toList,
   ("практичес").toList, ("лаборатор").toList, ("самостоятель").toList,
   ("руководител").toList, ("организац").toList, ("декан").toList,
   ("заместитель").toList, ("профессор").toList, ("кандидат").toList,
   ("научно").toList, ("деятельност").toList, ("работ").toList]

/-- Embedding of `BANNED_SUBSTRINGS` (app.py:30-73), verbatim. -/
def BANNED_SUBSTRINGS : List Str :=
  [("иностран").toList, ("физкульт").toList, ("физическая культура").toList,
   ("физкультура").toList, ("история казахстана").toList,
   ("информационно").toList, ("коммуникативн").toList, ("философия").toList,
   ("шетел тілі").toList, ("қазақ").toList, ("орыс").toList, ("тілі").toList,
   ("қазақстан тарихы").toList, ("ақпараттық").toList,
   ("коммуникациялық").toList, ("технологиялар").toList,
   ("дене шынықтыру").toList, ("жббп").toList, ("бп жк").toList,
   ("бп тк").toList, ("бп циклі").toList, ("кп жк").toList, ("кп тк").toList,
   ("кп циклі").toList, ("циклі бойынша").toList, ("по циклу").toList,
   ("оод ок").toList, ("оод вк").toList, ("оод").toList, ("бд вк").toList,
   ("бд кв").toList, ("бд").toList, ("пд вк").toList, ("пд кв").toList,
   ("пд").toList, ("эирм").toList, ("қорытынды аттестаттау").toList,
   ("итоговая аттестация").toList, ("final certification").toList,
   ("академиялық департамент").toList,
   ("директор академического департамента").toList, ("нужно так").toList]

/-- Embedding of `" / ".join([t for t in (c_text, d_text) if t])` (app.py:161). -/
def mergeCells (cText dText : Str) : Str :=
  if cText ≠ [] ∧ dText ≠ [] then cText ++ sepSlash ++ dText
  else if cText ≠ [] then cText
  else dText

/-- One iteration of the row loop of `extract_subjects_from_up33`
(app.py:150-177), up to the dedup/append step: the two cell values
(`Option.none` models an empty cell, `Option.some s` a cell whose `str()`
image is `s`) are stripped, header rows and rows failing the blocklist or
length filters yield nothing, and a merged text containing `" / "` is
collapsed to the stripped last piece when that piece is non-empty. -/
def processRow (cVal dVal : Option Str) : Option Str :=
  let cText := match cVal with | Option.some s => pyStrip s | Option.none => []
  let dText := match dVal with | Option.some s => pyStrip s | Option.none => []
  if cText = [] ∧ dText = [] then Option.none
  else
    let combined := pyStrip (pyLower cText ++ [' '] ++ pyLower dText)
    if header_tokens.any (fun tok => pyContains combined tok) then Option.none
    else
      let merged0 := mergeCells cText dText
      let merged1 :=
        if pyContains merged0 sepSlash then
          let russian := pyStrip ((splitSub sepSlash merged0).getLastD [])
          if russian ≠ [] then russian else merged0
        else merged0
      let ml := pyLower merged1
      if SUBJECT_EXCLUDE_SUBSTRINGS.any (fun b => pyContains ml b) then Option.none
      else if BANNED_SUBSTRINGS.any (fun b => pyContains ml b) then Option.none
      else if 160 < ml.length ∨ 20 < (pySplitWs ml).length then Option.none
      else Option.some merged1

/-- The row loop of `extract_subjects_from_up33` with its seen-set dedup
(app.py:148-182). -/
def extractRows : List (Option Str × Option Str) → List Str → List Str
  | [], _ => []
  | row :: rest, seen =>
    match processRow row.1 row.2 with
    | Option.none => extractRows rest seen
    | Option.some merged =>
      if merged ≠ [] ∧ normalize_subject merged ∉ seen then
        merged :: extractRows rest (normalize_subject merged :: seen)
      else extractRows rest seen

/-- Embedding of `extract_subjects_from_up33` (app.py:145-182) over the sequence of
(column C, column D) cell values of rows 2..max_row. -/
def extract_subjects_from_up33 (rows : List (Option Str × Option Str)) : List Str :=
  extractRows rows []

/-- Embedding of `unrelated_words` of the IPRbooks scorer (app.py:1222). -/
def unrelated_words : List Str :=
  [("программирование").toList, ("информатика").toList,
   ("математика").toList, ("физика").toList, ("химия").toList,
   ("английский").toList, ("язык").toList]

/-- Embedding of `automation_words` of the IPRbooks scorer (app.py:1227). -/
def automation_words : List Str :=
  [("автоматизация").toList, ("автоматизированный").toList,
   ("automation").toList, ("автомат").toList, ("машиностроение").toList]

/-- The automation-vocabulary check applied to the query (app.py:1229). -/
def automation_query_words : List Str :=
  [("автомат").toList, ("машин").toList, ("производств").toList]

/-- Embedding of `subject_words` (app.py:1200): lowercased whitespace tokens of the
query longer than two characters. -/
def subjectWordsOf (subject : Str) : List Str :=
  (pySplitWs (pyLower subject)).filter fun w => 2 < w.length

/-- Embedding of `matched_words` (app.py:1204). -/
def matchedWordsCount (subject title : Str) : Nat :=
  ((subjectWordsOf subject).filter fun w => pyContains (pyLower title) w).length

/-- The first-token bonus condition (app.py:1209-1212). -/
def firstWordHit (subject title : Str) : Bool :=
  match subjectWordsOf subject with
  | [] => false
  | w :: _ => pyContains (pyLower title) w

/-- The number of matched `important_parts` tokens (length > 4)
(app.py:1216-1219). -/
def longHitsCount (subject title : Str) : Nat :=
  (((subjectWordsOf subject).filter fun w => 4 < w.length).filter fun w =>
    pyContains (pyLower title) w).length

/-- The unrelated-topic penalty condition (app.py:1222-1224). -/
def unrelatedPenaltyFlag (subject title : Str) : Bool :=
  (unrelated_words.any fun w => pyContains (pyLower title) w) &&
    !(unrelated_words.any fun w => pyContains (pyLower subject) w)

/-- The automation penalty condition (app.py:1227-1231). -/
def automationPenaltyFlag (subject title : Str) : Bool :=
  (automation_words.any fun w => pyContains (pyLower title) w) &&
    !(automation_query_words.any fun w => pyContains (pyLower subject) w)

/-- Embedding of `startswith('а')` on the lowercased string (app.py:1235): the letter is
the Cyrillic а. -/
def startsWithA (s : Str) : Bool :=
  match pyLower s with
  | [] => false
  | c :: _ => c = 'а'

/-- The exact-substring bonus (app.py:1196-1197). -/
def substrBonus (subject title : Str) : Int :=
  if pyContains (pyLower title) (pyLower subject) = true then 10 else 0

/-- The per-matched-word bonus (app.py:1204-1206). -/
def matchedBonus (subject title : Str) : Int :=
  if 0 < matchedWordsCount subject title then
    (matchedWordsCount subject title : Int) * 3 else 0

/-- The first-word bonus (app.py:1209-1212). -/
def firstBonus (subject title : Str) : Int :=
  if firstWordHit subject title = true then 5 else 0

/-- The unrelated-topic penalty (app.py:1222-1224). -/
def unrelatedPenalty (subject title : Str) : Int :=
  if unrelatedPenaltyFlag subject title = true then 15 else 0

/-- The automation penalty (app.py:1227-1232). -/
def automationPenalty (subject title : Str) : Int :=
  if automationPenaltyFlag subject title = true then 25 else 0

/-- The value of `score` accumulated by `fetch_iprbookshop_reader`
(app.py:1192-1232) before the alphabetical-sorting penalty; this is the
value the `score < 5` guard of that penalty inspects. -/
def iprbookshop_base (subject title : Str) : Int :=
  substrBonus subject title
  + matchedBonus subject title
  + firstBonus subject title
  + 4 * (longHitsCount subject title : Int)
  - unrelatedPenalty subject title
  - automationPenalty subject title

/-- The candidate score computed for one book element by
`fetch_iprbookshop_reader` (app.py:1192-1239), including the
alphabetical-sorting penalty (app.py:1234-1239). -/
def iprbookshop_score (subject title : Str) : Int :=
  if startsWithA title = true ∧ startsWithA subject = false ∧
      iprbookshop_base subject title < 5 then
    iprbookshop_base subject title - 2
  else iprbookshop_base subject title

/-- The fallback record emitted when harvesting a subject's future raises
(app.py:2186-2192). -/
def fallbackInfo (msg : Str) : Info :=
  { links := [], primary_link := Option.none, status := ("error").toList,
    note := ("Ошибка поиска: ").toList ++ msg, resources := [] }

/-- First-match association lookup: `future.result()` for the future that
the submission loop created for a given subject. -/
def lookupOutcome : List (Str × Except Str Info) → Str → Option (Except Str Info)
  | [], _ => Option.none
  | (k, v) :: rest, s => if k = s then Option.some v else lookupOutcome rest s

/-- The `subject_done` events of the streaming generator
(app.py:2170-2197).  `future_to_subject` is a Python dict built by
submission order, and the harvesting `for future in future_to_subject`
iterates it in insertion order, so the generator walks `pending` in
submission order and blocks on each subject's own result; `completions`
carries each task's outcome keyed by subject (in an arbitrary completion
order). -/
def subjectDoneEvents (pending : List Str)
    (completions : List (Str × Except Str Info)) : List (Str × Info) :=
  pending.map fun subj =>
    match lookupOutcome completions subj with
    | Option.some (Except.ok info) => (subj, info)
    | Option.some (Except.error msg) => (subj, fallbackInfo msg)
    | Option.none => (subj, fallbackInfo [])

/-- An openpyxl cell value as observed by the merge code: `None`, a string
or a number. -/
inductive Val where
  | vnone : Val
  | vstr : Str → Val
  | vint : Int → Val
deriving DecidableEq

/-- Python truthiness of a cell value (`if subj_val`, `not any([...])`):
`None`, the empty string and `0` are falsy. -/
def truthy : Val → Bool
  | Val.vnone => false
  | Val.vstr s => decide (s ≠ [])
  | Val.vint n => decide (n ≠ 0)

/-- Python `str()` of a cell value. -/
def pyStr : Val → Str
  | Val.vnone => ("None").toList
  | Val.vstr s => s
  | Val.vint n => (toString n).toList

/-- A worksheet: a total assignment of values to (row, column) pairs plus
the openpyxl `max_row` bound.  Reads beyond `max_row` see empty cells; in
openpyxl such reads also auto-create empty rows (growing `max_row`), which
only lengthens later scans by all-blank rows and so is not modelled. -/
structure Sheet where
  cells : Nat → Nat → Val
  maxRow : Nat

/-- Cell assignment `ws.cell(row=r, column=c).value = v`. -/
def Sheet.set (s : Sheet) (r c : Nat) (v : Val) : Sheet :=
  { cells := fun r' c' => if r' = r ∧ c' = c then v else s.cells r' c',
    maxRow := max s.maxRow r }

/-- All truthy content lies within `maxRow` — the basic worksheet
well-formedness fact: past the populated region every cell reads empty. -/
def Sheet.Bounded (s : Sheet) : Prop :=
  ∀ r c, s.maxRow < r → truthy (s.cells r c) = false

/-- Embedding of `not any([a, b, c, d])` over the four tracking columns
(app.py:188-192). -/
def rowBlankB (s : Sheet) (r : Nat) : Bool :=
  !(truthy (s.cells r 1) || truthy (s.cells r 2) ||
    truthy (s.cells r 3) || truthy (s.cells r 4))

/-- The search loop of `find_next_row` with explicit fuel. -/
def findNextRowGo (s : Sheet) : Nat → Nat → Nat
  | 0, r => r
  | fuel + 1, r => if rowBlankB s r then r else findNextRowGo s fuel (r + 1)

/-- Embedding of `find_next_row` (app.py:185-194).  The Python `while True` loop needs
no bound because every row past the populated region reads as blank; on a
`Bounded` sheet row `maxRow + 1` is blank, so fuel `maxRow + 1 - start`
reproduces the loop exactly. -/
def find_next_row (s : Sheet) (start : Nat) : Nat :=
  findNextRowGo s (s.maxRow + 1 - start) start

/-- Integer value of a digit string. -/
def digitsToInt (s : Str) : Int :=
  s.foldl (fun a c => a * 10 + ((c.toNat : Int) - 48)) 0

/-- One iteration of the `compute_next_number` scan (app.py:199-211). -/
def nextNumStep (s : Sheet) (start : Nat) (acc : Int) (i : Nat) : Int :=
  match s.cells (start + i) 1 with
  | Val.vint n => if acc < n then n else acc
  | Val.vstr t =>
    if pyStrip t ≠ [] ∧ (pyStrip t).all Char.isDigit then
      (if acc < digitsToInt (pyStrip t) then digitsToInt (pyStrip t) else acc)
    else acc
  | Val.vnone => acc

/-- Embedding of `compute_next_number` (app.py:197-212): maximum number found in the
2000-row window starting at `start`, plus one (`max_num` starts at 0 and
never decreases, so the `else 1` branch of the Python return is dead). -/
def compute_next_number (s : Sheet) (start : Nat) : Int :=
  (List.range 2000).foldl (nextNumStep s start) 0 + 1

/-- The existing-(subject, link) scan over rows `start_row..max_row`
(app.py:2244-2250): rows with truthy subject (column 2) and link
(column 4) contribute the pair (normalized subject, stripped link). -/
def scanLinks (s : Sheet) (startRow : Nat) : List (Str × Str) :=
  (List.range' startRow (s.maxRow + 1 - startRow)).filterMap fun r =>
    if truthy (s.cells r 2) ∧ truthy (s.cells r 4) then
      Option.some (normalize_subject (pyStr (s.cells r 2)),
        pyStrip (pyStr (s.cells r 4)))
    else Option.none

/-- A row of the results payload (app.py:2290-2299). -/
structure PayloadEntry where
  subject : Str
  status : Str
  primary_link : Option Str
  links : List Str
  resources : List Resource
  note : Str
deriving DecidableEq

/-- The note fixups applied before appending to the payload
(app.py:2285-2288). -/
def payloadFix (status : Str) (links : List Str) (note : Str) : Str :=
  if status = ("error").toList ∧ links = [] then
    pyOrStr note (("Ссылки не найдены").toList)
  else if status = ("warning").toList ∧ note = [] then
    ("Требуется выбрать книгу вручную").toList
  else note

/-- The payload row built for one subject (app.py:2264-2299); a missing
entry in `link_results` defaults to `{"links": []}` and the `.get`
defaults of the code. -/
def payloadEntry (subject : Str) (info : Option Info) : PayloadEntry :=
  match info with
  | Option.some i =>
    { subject := subject, status := i.status, primary_link := i.primary_link,
      links := i.links, resources := i.resources,
      note := payloadFix i.status i.links i.note }
  | Option.none =>
    { subject := subject, status := ("warning").toList,
      primary_link := Option.none, links := [], resources := [],
      note := payloadFix (("warning").toList) [] [] }

/-- The evolving state of `process_excel_file`: the sheet, the insertion
cursor, the next sequence number, the (subject, link) pairs treated as
already present, the results payload, and — for specification purposes — a
log of the link rows written, as (row, subject, link). -/
structure MState where
  sheet : Sheet
  rowPtr : Nat
  nextNum : Int
  existing : List (Str × Str)
  payload : List PayloadEntry
  writes : List (Nat × Str × Str)

/-- The body of the per-link loop (app.py:2271-2283): skip pairs already
present, otherwise write (subject, link) into columns 2 and 4 of the next
blank row and record the pair. -/
def linkStep (subject : Str) (st : MState) (link : Str) : MState :=
  if (normalize_subject subject, link) ∈ st.existing then st
  else
    let r := find_next_row st.sheet st.rowPtr
    { sheet := (st.sheet.set r 2 (Val.vstr subject)).set r 4 (Val.vstr link),
      rowPtr := r + 1,
      nextNum := st.nextNum,
      existing := (normalize_subject subject, link) :: st.existing,
      payload := st.payload,
      writes := st.writes ++ [(r, subject, link)] }

/-- Embedding of `link_results.get(subject, ...).get("links", [])` with the default empty-links dictionary. -/
def infoLinks (lr : Str → Option Info) (subject : Str) : List Str :=
  match lr subject with
  | Option.some i => i.links
  | Option.none => []

/-- The body of the per-subject loop (app.py:2252-2299): write the header
row (sequence number, subject) into the next blank row, then the subject's
links, then append the payload row. -/
def subjectStep (lr : Str → Option Info) (st : MState) (subject : Str) : MState :=
  let r := find_next_row st.sheet st.rowPtr
  let st1 : MState :=
    { sheet := (st.sheet.set r 1 (Val.vint st.nextNum)).set r 2 (Val.vstr subject),
      rowPtr := r + 1,
      nextNum := st.nextNum + 1,
      existing := st.existing,
      payload := st.payload,
      writes := st.writes }
  let st2 := (infoLinks lr subject).foldl (linkStep subject) st1
  { st2 with payload := st2.payload ++ [payloadEntry subject (lr subject)] }

/-- Embedding of `process_excel_file` (app.py:2234-2301).  Style copying
(`copy_style`) transfers no cell values and is not modelled. -/
def process_excel_file (s0 : Sheet) (pending : List Str)
    (lr : Str → Option Info) (startRow : Nat) : MState :=
  let st0 : MState :=
    { sheet := s0,
      rowPtr := find_next_row s0 startRow,
      nextNum := compute_next_number s0 startRow,
      existing := scanLinks s0 startRow,
      payload := [],
      writes := [] }
  pending.foldl (subjectStep lr) st0

theorem Sheet.set_cells (s : Sheet) (r c : Nat) (v : Val) (r' c' : Nat) :
    (s.set r c v).cells r' c' = if r' = r ∧ c' = c then v else s.cells r' c' := rfl

theorem Sheet.set_maxRow (s : Sheet) (r c : Nat) (v : Val) :
    (s.set r c v).maxRow = max s.maxRow r := rfl

theorem set_cells_of_ne_row (s : Sheet) {r r' : Nat} (c c' : Nat) (v : Val)
    (h : r' ≠ r) : (s.set r c v).cells r' c' = s.cells r' c' := by
  rw [Sheet.set_cells, if_neg]
  intro hx
  exact h hx.1

theorem set_cells_self (s : Sheet) (r c : Nat) (v : Val) :
    (s.set r c v).cells r c = v := by
  rw [Sheet.set_cells, if_pos ⟨rfl, rfl⟩]

theorem maxRow_le_set (s : Sheet) (r c : Nat) (v : Val) :
    s.maxRow ≤ (s.set r c v).maxRow := by
  rw [Sheet.set_maxRow]
  exact Nat.le_max_left _ _

theorem row_le_set_maxRow (s : Sheet) (r c : Nat) (v : Val) :
    r ≤ (s.set r c v).maxRow := by
  rw [Sheet.set_maxRow]
  exact Nat.le_max_right _ _

theorem Sheet.Bounded.set {s : Sheet} (h : s.Bounded) (r c : Nat) (v : Val) :
    (s.set r c v).Bounded := by
  intro r' c' hr'
  rw [Sheet.set_maxRow] at hr'
  have h1 := Nat.le_max_left s.maxRow r
  have h2 := Nat.le_max_right s.maxRow r
  rw [set_cells_of_ne_row s c c' v (by omega)]
  exact h r' c' (by omega)

theorem rowBlankB_congr {s s' : Sheet} {r : Nat}
    (h : ∀ c, s'.cells r c = s.cells r c) : rowBlankB s' r = rowBlankB s r := by
  unfold rowBlankB
  rw [h 1, h 2, h 3, h 4]

theorem rowBlankB_of_bounded {s : Sheet} (h : s.Bounded) {r : Nat}
    (hr : s.maxRow < r) : rowBlankB s r = true := by
  unfold rowBlankB
  rw [h r 1 hr, h r 2 hr, h r 3 hr, h r 4 hr]
  rfl

theorem findNextRowGo_spec (s : Sheet) :
    ∀ fuel r, rowBlankB s (r + fuel) = true →
      r ≤ findNextRowGo s fuel r ∧
      rowBlankB s (findNextRowGo s fuel r) = true ∧
      ∀ i, r ≤ i → i < findNextRowGo s fuel r → rowBlankB s i = false := by
  intro fuel
  induction fuel with
  | zero =>
    intro r h
    refine ⟨Nat.le_refl r, by simpa using h, ?_⟩
    intro i h1 h2
    unfold findNextRowGo at h2
    omega
  | succ fuel ih =>
    intro r h
    unfold findNextRowGo
    cases hb : rowBlankB s r with
    | true =>
      rw [if_pos rfl]
      exact ⟨Nat.le_refl r, hb, fun i h1 h2 => by omega⟩
    | false =>
      rw [if_neg (by simp)]
      have h' : rowBlankB s ((r + 1) + fuel) = true := by
        rw [show (r + 1) + fuel = r + (fuel + 1) by omega]
        exact h
      obtain ⟨h1, h2, h3⟩ := ih (r + 1) h'
      refine ⟨by omega, h2, ?_⟩
      intro i hi1 hi2
      rcases Nat.eq_or_lt_of_le hi1 with hi | hi
      · rw [← hi]; exact hb
      · exact h3 i (by omega) hi2

/-- Specification of `find_next_row` on a bounded sheet: it yields the
least blank row at or after `start`. -/
theorem find_next_row_spec (s : Sheet) (hB : s.Bounded) (start : Nat) :
    start ≤ find_next_row s start ∧
    rowBlankB s (find_next_row s start) = true ∧
    ∀ i, start ≤ i → i < find_next_row s start → rowBlankB s i = false := by
  have hb : rowBlankB s (start + (s.maxRow + 1 - start)) = true := by
    apply rowBlankB_of_bounded hB
    omega
  exact findNextRowGo_spec s (s.maxRow + 1 - start) start hb

theorem write2_cells_col2 (s : Sheet) (r : Nat) (a b : Val) :
    ((s.set r 2 a).set r 4 b).cells r 2 = a := by
  rw [Sheet.set_cells, if_neg (by simp), set_cells_self]

theorem write2_cells_col4 (s : Sheet) (r : Nat) (a b : Val) :
    ((s.set r 2 a).set r 4 b).cells r 4 = b :=
  set_cells_self _ r 4 b

/-- Sheet well-formedness plus the specification log of the link rows
written so far: each logged (row, subject, link) lies in
`[startRow, maxRow]`, has non-empty stripped components, and its subject
and link still sit in columns 2 and 4 of the logged row. -/
def WritesOk (startRow : Nat) (st : MState) : Prop :=
  ∀ w ∈ st.writes, startRow ≤ w.1 ∧ w.1 ≤ st.sheet.maxRow ∧
    w.2.1 ≠ [] ∧ w.2.2 ≠ [] ∧ pyStrip w.2.2 = w.2.2 ∧
    st.sheet.cells w.1 2 = Val.vstr w.2.1 ∧ st.sheet.cells w.1 4 = Val.vstr w.2.2

def MInv (startRow : Nat) (st : MState) : Prop :=
  st.sheet.Bounded ∧ startRow ≤ st.rowPtr ∧ WritesOk startRow st

/-- The frame property relative to a base sheet: rows that were non-blank
in `s0` still hold exactly their `s0` values. -/
def FrameInv (s0 : Sheet) (st : MState) : Prop :=
  st.sheet.Bounded ∧
  ∀ r, rowBlankB s0 r = false → ∀ c, st.sheet.cells r c = s0.cells r c

/-- Relative to a base pair set `E0`: `E0` stays inside the tracked
existing set and no logged write carries a key from `E0`. -/
def NoOld (E0 : List (Str × Str)) (st : MState) : Prop :=
  (∀ p ∈ E0, p ∈ st.existing) ∧
  ∀ w ∈ st.writes, (normalize_subject w.2.1, w.2.2) ∉ E0

theorem write_row_not_blank (s : Sheet) (r : Nat) (t : Str)
    (h2 : s.cells r 2 = Val.vstr t) (hne : t ≠ []) :
    rowBlankB s r = false := by
  unfold rowBlankB
  rw [h2]
  simp [truthy, hne]

theorem linkStep_bounded (subject link : Str) (st : MState)
    (hB : st.sheet.Bounded) : (linkStep subject st link).sheet.Bounded := by
  unfold linkStep
  split
  · exact hB
  · exact (hB.set _ _ _).set _ _ _

theorem linkStep_frame (subject link : Str) (st : MState)
    (hB : st.sheet.Bounded) {r : Nat} (hnb : rowBlankB st.sheet r = false)
    (c : Nat) : (linkStep subject st link).sheet.cells r c = st.sheet.cells r c := by
  unfold linkStep
  split
  · rfl
  · dsimp only
    have hspec := find_next_row_spec st.sheet hB st.rowPtr
    have hne : r ≠ find_next_row st.sheet st.rowPtr := by
      intro h0
      rw [h0, hspec.2.1] at hnb
      simp at hnb
    rw [set_cells_of_ne_row _ 4 c _ hne, set_cells_of_ne_row _ 2 c _ hne]

theorem linkStep_maxRow_mono (subject link : Str) (st : MState) :
    st.sheet.maxRow ≤ (linkStep subject st link).sheet.maxRow := by
  unfold linkStep
  split
  · exact Nat.le_refl _
  · exact Nat.le_trans (maxRow_le_set _ _ _ _) (maxRow_le_set _ _ _ _)

theorem linkStep_inv (subject link : Str) (st : MState) (startRow : Nat)
    (hInv : MInv startRow st) (hsub : subject ≠ []) (hl : link ≠ [])
    (hls : pyStrip link = link) : MInv startRow (linkStep subject st link) := by
  obtain ⟨hB, hptr, hw⟩ := hInv
  unfold linkStep
  split
  · exact ⟨hB, hptr, hw⟩
  · dsimp only
    have hspec := find_next_row_spec st.sheet hB st.rowPtr
    refine ⟨(hB.set _ _ _).set _ _ _,
      Nat.le_trans hptr (Nat.le_trans hspec.1 (Nat.le_succ _)), ?_⟩
    intro w hwmem
    rw [List.mem_append] at hwmem
    rcases hwmem with hmem | hmem
    · obtain ⟨ha, hbm, hc, hd, he, hf, hg⟩ := hw w hmem
      have hnb : rowBlankB st.sheet w.1 = false :=
        write_row_not_blank st.sheet w.1 w.2.1 hf hc
      have hne : w.1 ≠ find_next_row st.sheet st.rowPtr := by
        intro h0
        rw [h0, hspec.2.1] at hnb
        simp at hnb
      refine ⟨ha,
        Nat.le_trans hbm (Nat.le_trans (maxRow_le_set _ _ _ _) (maxRow_le_set _ _ _ _)),
        hc, hd, he, ?_, ?_⟩
      · rw [set_cells_of_ne_row _ 4 2 _ hne, set_cells_of_ne_row _ 2 2 _ hne]
        exact hf
      · rw [set_cells_of_ne_row _ 4 4 _ hne, set_cells_of_ne_row _ 2 4 _ hne]
        exact hg
    · rw [List.mem_singleton] at hmem
      subst hmem
      refine ⟨Nat.le_trans hptr hspec.1,
        Nat.le_trans (row_le_set_maxRow _ _ 2 _) (maxRow_le_set _ _ 4 _),
        hsub, hl, hls, write2_cells_col2 _ _ _ _, write2_cells_col4 _ _ _ _⟩

theorem linkStep_frameInv (subject link : Str) (st : MState) (s0 : Sheet)
    (h : FrameInv s0 st) : FrameInv s0 (linkStep subject st link) := by
  obtain ⟨hB, hfr⟩ := h
  refine ⟨linkStep_bounded _ _ _ hB, ?_⟩
  intro r hr c
  have hnb : rowBlankB st.sheet r = false := by
    rw [rowBlankB_congr (fun c => hfr r hr c)]
    exact hr
  rw [linkStep_frame subject link st hB hnb c]
  exact hfr r hr c

theorem linkStep_noOld (subject link : Str) (st : MState)
    (E0 : List (Str × Str)) (h : NoOld E0 st) :
    NoOld E0 (linkStep subject st link) := by
  obtain ⟨h1, h2⟩ := h
  unfold linkStep
  split
  · exact ⟨h1, h2⟩
  · rename_i hkey
    refine ⟨fun p hp => List.mem_cons_of_mem _ (h1 p hp), ?_⟩
    intro w hwmem
    rw [List.mem_append] at hwmem
    rcases hwmem with hmem | hmem
    · exact h2 w hmem
    · rw [List.mem_singleton] at hmem
      subst hmem
      intro hbad
      exact hkey (h1 _ hbad)

theorem foldl_linkStep_frameInv (subject : Str) (links : List Str) (s0 : Sheet) :
    ∀ st, FrameInv s0 st → FrameInv s0 (links.foldl (linkStep subject) st) := by
  induction links with
  | nil => intro st h; exact h
  | cons l ls ih => intro st h; exact ih _ (linkStep_frameInv _ _ _ _ h)

theorem foldl_linkStep_inv (subject : Str) (startRow : Nat) (hsub : subject ≠ []) :
    ∀ links : List Str, (∀ l ∈ links, l ≠ [] ∧ pyStrip l = l) →
      ∀ st, MInv startRow st → MInv startRow (links.foldl (linkStep subject) st) := by
  intro links
  induction links with
  | nil => intro _ st h; exact h
  | cons l ls ih =>
    intro hlinks st h
    have h1 := hlinks l (List.mem_cons_self _ _)
    exact ih (fun x hx => hlinks x (List.mem_cons_of_mem _ hx)) _
      (linkStep_inv subject l st startRow h hsub h1.1 h1.2)

theorem foldl_linkStep_noOld (subject : Str) (E0 : List (Str × Str)) :
    ∀ links : List Str, ∀ st, NoOld E0 st →
      NoOld E0 (links.foldl (linkStep subject) st) := by
  intro links
  induction links with
  | nil => intro st h; exact h
  | cons l ls ih => intro st h; exact ih _ (linkStep_noOld _ _ _ _ h)

theorem subjectStep_frameInv (lr : Str → Option Info) (subject : Str)
    (st : MState) (s0 : Sheet) (h : FrameInv s0 st) :
    FrameInv s0 (subjectStep lr st subject) := by
  obtain ⟨hB, hfr⟩ := h
  have hspec := find_next_row_spec st.sheet hB st.rowPtr
  have hstep1 : FrameInv s0
      { sheet := (st.sheet.set (find_next_row st.sheet st.rowPtr) 1
          (Val.vint st.nextNum)).set (find_next_row st.sheet st.rowPtr) 2
          (Val.vstr subject),
        rowPtr := find_next_row st.sheet st.rowPtr + 1,
        nextNum := st.nextNum + 1, existing := st.existing,
        payload := st.payload, writes := st.writes } := by
    refine ⟨(hB.set _ _ _).set _ _ _, ?_⟩
    intro r hr c
    have hnb : rowBlankB st.sheet r = false := by
      rw [rowBlankB_congr (fun c => hfr r hr c)]
      exact hr
    have hne : r ≠ find_next_row st.sheet st.rowPtr := by
      intro h0
      rw [h0, hspec.2.1] at hnb
      simp at hnb
    dsimp only
    rw [set_cells_of_ne_row _ 2 c _ hne, set_cells_of_ne_row _ 1 c _ hne]
    exact hfr r hr c
  exact foldl_linkStep_frameInv subject (infoLinks lr subject) s0 _ hstep1

theorem subjectStep_inv (lr : Str → Option Info) (subject : Str) (st : MState)
    (startRow : Nat) (h : MInv startRow st) (hsub : subject ≠ [])
    (hlinks : ∀ l ∈ infoLinks lr subject, l ≠ [] ∧ pyStrip l = l) :
    MInv startRow (subjectStep lr st subject) := by
  obtain ⟨hB, hptr, hw⟩ := h
  have hspec := find_next_row_spec st.sheet hB st.rowPtr
  have hstep1 : MInv startRow
      { sheet := (st.sheet.set (find_next_row st.sheet st.rowPtr) 1
          (Val.vint st.nextNum)).set (find_next_row st.sheet st.rowPtr) 2
          (Val.vstr subject),
        rowPtr := find_next_row st.sheet st.rowPtr + 1,
        nextNum := st.nextNum + 1, existing := st.existing,
        payload := st.payload, writes := st.writes } := by
    refine ⟨(hB.set _ _ _).set _ _ _,
      Nat.le_trans hptr (Nat.le_trans hspec.1 (Nat.le_succ _)), ?_⟩
    intro w hwmem
    obtain ⟨ha, hbm, hc, hd, he, hf, hg⟩ := hw w hwmem
    have hnb : rowBlankB st.sheet w.1 = false :=
      write_row_not_blank st.sheet w.1 w.2.1 hf hc
    have hne : w.1 ≠ find_next_row st.sheet st.rowPtr := by
      intro h0
      rw [h0, hspec.2.1] at hnb
      simp at hnb
    refine ⟨ha,
      Nat.le_trans hbm (Nat.le_trans (maxRow_le_set _ _ _ _) (maxRow_le_set _ _ _ _)),
      hc, hd, he, ?_, ?_⟩
    · rw [set_cells_of_ne_row _ 2 2 _ hne, set_cells_of_ne_row _ 1 2 _ hne]
      exact hf
    · rw [set_cells_of_ne_row _ 2 4 _ hne, set_cells_of_ne_row _ 1 4 _ hne]
      exact hg
  exact foldl_linkStep_inv subject startRow hsub (infoLinks lr subject) hlinks _ hstep1

theorem subjectStep_noOld (lr : Str → Option Info) (subject : Str) (st : MState)
    (E0 : List (Str × Str)) (h : NoOld E0 st) :
    NoOld E0 (subjectStep lr st subject) := by
  have hstep1 : NoOld E0
      { sheet := (st.sheet.set (find_next_row st.sheet st.rowPtr) 1
          (Val.vint st.nextNum)).set (find_next_row st.sheet st.rowPtr) 2
          (Val.vstr subject),
        rowPtr := find_next_row st.sheet st.rowPtr + 1,
        nextNum := st.nextNum + 1, existing := st.existing,
        payload := st.payload, writes := st.writes } := h
  exact foldl_linkStep_noOld subject E0 (infoLinks lr subject) _ hstep1

theorem foldl_subjectStep_frameInv (lr : Str → Option Info) (s0 : Sheet) :
    ∀ (pending : List Str) (st : MState), FrameInv s0 st →
      FrameInv s0 (pending.foldl (subjectStep lr) st) := by
  intro pending
  induction pending with
  | nil => intro st h; exact h
  | cons p ps ih => intro st h; exact ih _ (subjectStep_frameInv lr p st s0 h)

theorem foldl_subjectStep_inv (lr : Str → Option Info) (startRow : Nat)
    (hlinks : ∀ sub, ∀ l ∈ infoLinks lr sub, l ≠ [] ∧ pyStrip l = l) :
    ∀ (pending : List Str), (∀ s ∈ pending, s ≠ []) →
      ∀ st : MState, MInv startRow st →
        MInv startRow (pending.foldl (subjectStep lr) st) := by
  intro pending
  induction pending with
  | nil => intro _ st h; exact h
  | cons p ps ih =>
    intro hsub st h
    exact ih (fun s hs => hsub s (List.mem_cons_of_mem _ hs)) _
      (subjectStep_inv lr p st startRow h (hsub p (List.mem_cons_self _ _))
        (hlinks p))

theorem foldl_subjectStep_noOld (lr : Str → Option Info)
    (E0 : List (Str × Str)) :
    ∀ (pending : List Str) (st : MState), NoOld E0 st →
      NoOld E0 (pending.foldl (subjectStep lr) st) := by
  intro pending
  induction pending with
  | nil => intro st h; exact h
  | cons p ps ih => intro st h; exact ih _ (subjectStep_noOld lr p st _ h)

theorem process_frameInv (s0 : Sheet) (pending : List Str)
    (lr : Str → Option Info) (startRow : Nat) (hB : s0.Bounded) :
    FrameInv s0 (process_excel_file s0 pending lr startRow) :=
  foldl_subjectStep_frameInv lr s0 pending _ ⟨hB, fun _ _ _ => rfl⟩

theorem process_inv (s0 : Sheet) (pending : List Str)
    (lr : Str → Option Info) (startRow : Nat) (hB : s0.Bounded)
    (hsub : ∀ s ∈ pending, s ≠ [])
    (hlinks : ∀ sub, ∀ l ∈ infoLinks lr sub, l ≠ [] ∧ pyStrip l = l) :
    MInv startRow (process_excel_file s0 pending lr startRow) :=
  foldl_subjectStep_inv lr startRow hlinks pending hsub _
    ⟨hB, (find_next_row_spec s0 hB startRow).1, fun w hw => absurd hw (by simp)⟩

theorem process_noOld (s0 : Sheet) (pending : List Str)
    (lr : Str → Option Info) (startRow : Nat) :
    NoOld (scanLinks s0 startRow) (process_excel_file s0 pending lr startRow) :=
  foldl_subjectStep_noOld lr (scanLinks s0 startRow) pending _
    ⟨fun p hp => hp, fun w hw => absurd hw (by simp)⟩

theorem mem_scanLinks (s : Sheet) (startRow r : Nat)
    (h1 : startRow ≤ r) (h2 : r ≤ s.maxRow)
    (h4 : truthy (s.cells r 2) = true) (h5 : truthy (s.cells r 4) = true) :
    (normalize_subject (pyStr (s.cells r 2)), pyStrip (pyStr (s.cells r 4)))
      ∈ scanLinks s startRow := by
  unfold scanLinks
  apply List.mem_filterMap.mpr
  refine ⟨r, ?_, ?_⟩
  · apply List.mem_range'_1.mpr
    omega
  · rw [if_pos ⟨h4, h5⟩]

/-- A small concrete bounded worksheet: row 1 carries a value, everything
else is empty. -/
def witSheet : Sheet :=
  { cells := fun r c => if r = 1 ∧ c = 1 then Val.vstr (("x").toList) else Val.vnone,
    maxRow := 1 }

theorem witSheet_bounded : witSheet.Bounded := by
  intro r c hr
  have hne : ¬(r = 1 ∧ c = 1) := by
    intro h
    rw [h.1] at hr
    exact absurd hr (by norm_num [witSheet])
  simp only [witSheet, hne, if_false, truthy]

/-- C10: on any worksheet whose populated region lies within `maxRow`
(every cell past it reads empty, which is what guarantees the Python
`while True` loop of `find_next_row`, app.py:185-194, terminates),
`find_next_row` returns the smallest row index at or after `start` whose
four tracking columns (1-4) are all empty (Python-falsy). -/
theorem find_next_row_terminates_least (s : Sheet) (start : Nat)
    (hB : s.Bounded) :
    start ≤ find_next_row s start ∧
    rowBlankB s (find_next_row s start) = true ∧
    ∀ i, start ≤ i → i < find_next_row s start → rowBlankB s i = false :=
  find_next_row_spec s hB start

theorem find_next_row_terminates_least_witness :
    witSheet.Bounded ∧
    (1 ≤ find_next_row witSheet 1 ∧
      rowBlankB witSheet (find_next_row witSheet 1) = true ∧
      ∀ i, 1 ≤ i → i < find_next_row witSheet 1 → rowBlankB witSheet i = false) :=
  ⟨witSheet_bounded, find_next_row_terminates_least witSheet 1 witSheet_bounded⟩

/-- C5: a merge run never changes any cell of a row that was non-blank
(some tracking column Python-truthy) before the run: all writes go to rows
that `find_next_row` found blank at the moment of writing, so every
originally non-blank row keeps all its values.  Style copying
(`copy_style`, app.py:1954-1987) transfers no cell values. -/
theorem merge_never_overwrites (s0 : Sheet) (pending : List Str)
    (lr : Str → Option Info) (startRow : Nat) (hB : s0.Bounded) :
    ∀ r, rowBlankB s0 r = false →
      ∀ c, (process_excel_file s0 pending lr startRow).sheet.cells r c =
        s0.cells r c :=
  (process_frameInv s0 pending lr startRow hB).2

theorem merge_never_overwrites_witness :
    witSheet.Bounded ∧
    (∀ r, rowBlankB witSheet r = false →
      ∀ c, (process_excel_file witSheet [("а").toList]
        (fun _ => Option.none) 1).sheet.cells r c = witSheet.cells r c) :=
  ⟨witSheet_bounded,
    merge_never_overwrites witSheet [("а").toList] (fun _ => Option.none) 1
      witSheet_bounded⟩

/-- An all-empty worksheet. -/
def emptySheetW : Sheet := { cells := fun _ _ => Val.vnone, maxRow := 0 }

theorem emptySheetW_bounded : emptySheetW.Bounded := fun _ _ _ => rfl

/-- A concrete resolved record with one link. -/
def witInfo : Info :=
  { links := [("u1").toList], primary_link := Option.some (("u1").toList),
    status := ("success").toList, note := [], resources := [] }

/-- A concrete `link_results` mapping. -/
def witLr : Str → Option Info := fun s =>
  if s = ("математика").toList then Option.some witInfo else Option.none

theorem witLr_links : ∀ sub, ∀ l ∈ infoLinks witLr sub,
    l ≠ [] ∧ pyStrip l = l := by
  intro sub l hl
  by_cases hs : sub = ("математика").toList
  · subst hs
    have h1 : infoLinks witLr (("математика").toList) = [("u1").toList] := by decide
    rw [h1, List.mem_singleton] at hl
    subst hl
    exact ⟨by decide, by decide⟩
  · have h1 : infoLinks witLr sub = [] := by
      unfold infoLinks witLr
      rw [if_neg hs]
    rw [h1] at hl
    exact absurd hl (List.not_mem_nil l)

/-- C4: running the merge a second time, with the same pending subjects
and resolved records, on the sheet produced by the first run appends no
link row for a pair already present: (i) the second run's existing-links
scan covers every (normalized subject, link) pair written by the first
run, (ii) no link row written by the second run carries a pair found by
that scan, and hence (iii) no pair written by the first run is written
again.  Links are assumed non-empty and whitespace-stripped, as every
adapter produces them (URLs built by `urljoin`). -/
theorem merge_idempotent (s0 : Sheet) (pending : List Str)
    (lr : Str → Option Info) (startRow : Nat) (hB : s0.Bounded)
    (hsub : ∀ s ∈ pending, s ≠ [])
    (hlinks : ∀ sub, ∀ l ∈ infoLinks lr sub, l ≠ [] ∧ pyStrip l = l) :
    (∀ w ∈ (process_excel_file s0 pending lr startRow).writes,
      (normalize_subject w.2.1, w.2.2) ∈
        scanLinks (process_excel_file s0 pending lr startRow).sheet startRow) ∧
    (∀ w ∈ (process_excel_file
        (process_excel_file s0 pending lr startRow).sheet pending lr
        startRow).writes,
      (normalize_subject w.2.1, w.2.2) ∉
        scanLinks (process_excel_file s0 pending lr startRow).sheet startRow) ∧
    (∀ w2 ∈ (process_excel_file
        (process_excel_file s0 pending lr startRow).sheet pending lr
        startRow).writes,
      ∀ w1 ∈ (process_excel_file s0 pending lr startRow).writes,
        (normalize_subject w2.2.1, w2.2.2) ≠
          (normalize_subject w1.2.1, w1.2.2)) := by
  have hinv := process_inv s0 pending lr startRow hB hsub hlinks
  have hcover : ∀ w ∈ (process_excel_file s0 pending lr startRow).writes,
      (normalize_subject w.2.1, w.2.2) ∈
        scanLinks (process_excel_file s0 pending lr startRow).sheet startRow := by
    intro w hw
    obtain ⟨ha, hbm, hc, hd, he, hf, hg⟩ := hinv.2.2 w hw
    have hmem := mem_scanLinks
      (process_excel_file s0 pending lr startRow).sheet startRow w.1 ha hbm
      (by rw [hf]; simp [truthy, hc]) (by rw [hg]; simp [truthy, hd])
    rw [hf, hg] at hmem
    simpa [pyStr, he] using hmem
  have hnew := process_noOld (process_excel_file s0 pending lr startRow).sheet
    pending lr startRow
  refine ⟨hcover, hnew.2, ?_⟩
  intro w2 hw2 w1 hw1 heq
  exact hnew.2 w2 hw2 (heq ▸ hcover w1 hw1)

theorem merge_idempotent_witness :
    emptySheetW.Bounded ∧
    (∀ s ∈ [("математика").toList], s ≠ ([] : Str)) ∧
    (∀ sub, ∀ l ∈ infoLinks witLr sub, l ≠ [] ∧ pyStrip l = l) ∧
    ((∀ w ∈ (process_excel_file emptySheetW [("математика").toList] witLr 1).writes,
      (normalize_subject w.2.1, w.2.2) ∈
        scanLinks (process_excel_file emptySheetW [("математика").toList]
          witLr 1).sheet 1) ∧
    (∀ w ∈ (process_excel_file
        (process_excel_file emptySheetW [("математика").toList] witLr 1).sheet
        [("математика").toList] witLr 1).writes,
      (normalize_subject w.2.1, w.2.2) ∉
        scanLinks (process_excel_file emptySheetW [("математика").toList]
          witLr 1).sheet 1) ∧
    (∀ w2 ∈ (process_excel_file
        (process_excel_file emptySheetW [("математика").toList] witLr 1).sheet
        [("математика").toList] witLr 1).writes,
      ∀ w1 ∈ (process_excel_file emptySheetW [("математика").toList] witLr 1).writes,
        (normalize_subject w2.2.1, w2.2.2) ≠
          (normalize_subject w1.2.1, w1.2.2))) :=
  ⟨emptySheetW_bounded, by decide, witLr_links,
    merge_idempotent emptySheetW [("математика").toList] witLr 1
      emptySheetW_bounded (by decide) witLr_links⟩

theorem dedupResources_spec (rs : List Resource) : ∀ seen,
    (dedupResources rs seen).1 = (dedupResources rs seen).2.map Resource.url ∧
    (dedupResources rs seen).1.Nodup ∧
    (∀ u ∈ (dedupResources rs seen).1, u ∉ seen ∧ u ≠ []) := by
  induction rs with
  | nil =>
    intro seen
    exact ⟨rfl, List.nodup_nil, by simp [dedupResources]⟩
  | cons r rest ih =>
    intro seen
    unfold dedupResources
    split
    · exact ih seen
    · rename_i hcond
      push_neg at hcond
      dsimp only
      obtain ⟨h1, h2, h3⟩ := ih (r.url :: seen)
      refine ⟨by rw [List.map_cons, h1], ?_, ?_⟩
      · apply List.nodup_cons.mpr
        refine ⟨?_, h2⟩
        intro hmem
        exact (h3 r.url hmem).1 (List.mem_cons_self _ _)
      · intro u hu
        rcases List.mem_cons.mp hu with h | h
        · subst h
          exact ⟨hcond.2, hcond.1⟩
        · obtain ⟨ha, hb⟩ := h3 u h
          exact ⟨fun hm => ha (List.mem_cons_of_mem _ hm), hb⟩

theorem dedupResources_mem (u : Str) (hu : u ≠ []) :
    ∀ (rs : List Resource) (seen : List Str),
      u ∈ rs.map Resource.url → u ∉ seen → u ∈ (dedupResources rs seen).1 := by
  intro rs
  induction rs with
  | nil =>
    intro seen h _
    simp at h
  | cons r rest ih =>
    intro seen hmem hseen
    simp only [List.map_cons, List.mem_cons] at hmem
    unfold dedupResources
    split
    · rename_i hcond
      rcases hmem with h | h
      · rcases hcond with hc | hc
        · exact absurd (h.trans hc) hu
        · exact absurd (h ▸ hc) hseen
      · exact ih seen h hseen
    · rename_i hcond
      push_neg at hcond
      dsimp only
      rcases hmem with h | h
      · rw [h]
        exact List.mem_cons_self _ _
      · by_cases hru : u = r.url
        · rw [hru]
          exact List.mem_cons_self _ _
        · apply List.mem_cons_of_mem
          apply ih (r.url :: seen) h
          intro hx
          rcases List.mem_cons.mp hx with h0 | h0
          · exact hru h0
          · exact hseen h0

/-- The invariant carried through the three network stages: a set
`primary_link` is a non-empty URL of one of the accumulated resources. -/
def PreInv (info : Info) : Prop :=
  ∀ u, info.primary_link = Option.some u →
    u ≠ [] ∧ u ∈ info.resources.map Resource.url

theorem preInv_default : PreInv defaultInfo := by
  intro u h
  simp [defaultInfo] at h

theorem pyOrOpt_cases (o : Option Str) (v u : Str)
    (h : pyOrOpt o v = Option.some u) :
    u = v ∨ (o = Option.some u ∧ u ≠ []) := by
  cases o with
  | none => exact Or.inl (Option.some.inj h).symm
  | some s =>
    by_cases hs : s = []
    · left
      have hv : pyOrOpt (Option.some s) v = Option.some v := by
        show (if s = [] then Option.some v else Option.some s) = Option.some v
        rw [if_pos hs]
      rw [hv] at h
      exact (Option.some.inj h).symm
    · right
      have hv : pyOrOpt (Option.some s) v = Option.some s := by
        show (if s = [] then Option.some v else Option.some s) = Option.some s
        rw [if_neg hs]
      rw [hv] at h
      have hsu : s = u := Option.some.inj h
      subst hsu
      exact ⟨rfl, hs⟩

theorem applyRmebrk_preInv (info : Info) (rm : Except Str (List Resource))
    (hpre : PreInv info)
    (hurl : ∀ rs, rm = Except.ok rs → ∀ r ∈ rs, r.url ≠ []) :
    PreInv (applyRmebrk info rm) := by
  cases rm with
  | error e => exact hpre
  | ok results =>
    cases results with
    | nil => exact hpre
    | cons r rest =>
      intro u h
      simp only [applyRmebrk] at h ⊢
      rcases pyOrOpt_cases _ _ _ h with h1 | h1
      · subst h1
        refine ⟨hurl _ rfl r (List.mem_cons_self _ _), ?_⟩
        rw [List.map_append]
        exact List.mem_append_right _ (by simp)
      · obtain ⟨ho, hne⟩ := h1
        obtain ⟨hg2, hg3⟩ := hpre u ho
        exact ⟨hg2, by rw [List.map_append]; exact List.mem_append_left _ hg3⟩

theorem applyUrait_preInv (info : Info) (ur : Except Str (List Resource))
    (hpre : PreInv info)
    (hurl : ∀ rs, ur = Except.ok rs → ∀ r ∈ rs, r.url ≠ []) :
    PreInv (applyUrait info ur) := by
  cases ur with
  | error e =>
    intro u h
    simp only [applyUrait] at h ⊢
    exact hpre u h
  | ok results =>
    cases results with
    | nil => exact hpre
    | cons r rest =>
      intro u h
      simp only [applyUrait] at h ⊢
      have hu : u = r.url := (Option.some.inj h).symm
      subst hu
      refine ⟨hurl _ rfl r (List.mem_cons_self _ _), ?_⟩
      rw [List.map_append]
      exact List.mem_append_right _ (by simp)

theorem applyIpr_preInv (info : Info) (ipr : Option Resource)
    (hpre : PreInv info)
    (hurl : ∀ r, ipr = Option.some r → r.url ≠ []) :
    PreInv (applyIpr info ipr) := by
  cases ipr with
  | none => exact hpre
  | some r =>
    intro u h
    simp only [applyIpr] at h ⊢
    rcases pyOrOpt_cases _ _ _ h with h1 | h1
    · subst h1
      refine ⟨hurl r rfl, ?_⟩
      rw [List.map_append]
      exact List.mem_append_right _ (by simp)
    · obtain ⟨ho, hne⟩ := h1
      obtain ⟨hg2, hg3⟩ := hpre u ho
      exact ⟨hg2, by rw [List.map_append]; exact List.mem_append_left _ hg3⟩

theorem finalizeInfo_invariants (info : Info) (hpre : PreInv info) :
    ((finalizeInfo info).resources.map Resource.url).Nodup ∧
    (finalizeInfo info).links = (finalizeInfo info).resources.map Resource.url ∧
    ((finalizeInfo info).primary_link = Option.none ∨
      ∃ u, (finalizeInfo info).primary_link = Option.some u ∧
        u ∈ (finalizeInfo info).links) := by
  obtain ⟨heq, hnd, hseen⟩ := dedupResources_spec info.resources []
  have hprim : ∀ u, info.primary_link = Option.some u →
      u ∈ (dedupResources info.resources []).1 := by
    intro u hu
    obtain ⟨h1, h2⟩ := hpre u hu
    exact dedupResources_mem u h1 info.resources [] h2 (by simp)
  unfold finalizeInfo
  dsimp only
  split
  · refine ⟨by rw [← heq]; exact hnd, heq, ?_⟩
    cases hp : info.primary_link with
    | none => exact Or.inl rfl
    | some u => exact Or.inr ⟨u, rfl, hprim u hp⟩
  · refine ⟨by rw [← heq]; exact hnd, heq, ?_⟩
    cases hp : info.primary_link with
    | none => exact Or.inl rfl
    | some u => exact Or.inr ⟨u, rfl, hprim u hp⟩

/-- C3: every record built by `fetch_links_for_subject` satisfies the
ResourceRecord invariant: `resources` has pairwise-distinct URLs, `links`
is exactly the URLs of `resources` in order, and `primary_link` is either
`None` or one of the URLs in `links`.  The hypotheses record that the
catalog adapters only produce non-empty URLs (every adapter builds them
with `urljoin` from a non-empty `href`). -/
theorem resource_record_invariants (rm ur : Except Str (List Resource))
    (ipr : Option Resource) (subject : Str)
    (hrm : ∀ rs, rm = Except.ok rs → ∀ r ∈ rs, r.url ≠ [])
    (hur : ∀ rs, ur = Except.ok rs → ∀ r ∈ rs, r.url ≠ [])
    (hipr : ∀ r, ipr = Option.some r → r.url ≠ []) :
    ((fetch_links_for_subject rm ur ipr subject).resources.map Resource.url).Nodup ∧
    (fetch_links_for_subject rm ur ipr subject).links =
      (fetch_links_for_subject rm ur ipr subject).resources.map Resource.url ∧
    ((fetch_links_for_subject rm ur ipr subject).primary_link = Option.none ∨
      ∃ u, (fetch_links_for_subject rm ur ipr subject).primary_link =
          Option.some u ∧
        u ∈ (fetch_links_for_subject rm ur ipr subject).links) := by
  unfold fetch_links_for_subject
  cases hm : matchedRule (normalize_subject subject) with
  | some rule =>
    have hrule : rule ∈ KNOWN_RESOURCE_RULES := List.mem_of_find?_eq_some hm
    simp only [KNOWN_RESOURCE_RULES, List.mem_singleton] at hrule
    subst hrule
    dsimp only
    refine ⟨by decide, by decide, Or.inr ?_⟩
    exact ⟨("https://www.iprbookshop.ru/147933.html").toList, by decide, by decide⟩
  | none =>
    exact finalizeInfo_invariants _
      (applyIpr_preInv _ ipr
        (applyUrait_preInv _ ur
          (applyRmebrk_preInv _ rm preInv_default hrm) hur) hipr)

/-- Concrete adapter outputs used as witnesses. -/
def witRes1 : Resource :=
  { title := ("t1").toList, url := ("u1").toList,
    status := ("success").toList, note := [] }

def witRes2 : Resource :=
  { title := ("t2").toList, url := ("u2").toList,
    status := ("success").toList, note := [] }

def witRes3 : Resource :=
  { title := ("t3").toList, url := ("u3").toList,
    status := ("success").toList, note := ("n").toList }

def witRm : Except Str (List Resource) := Except.ok [witRes1]

def witUr : Except Str (List Resource) := Except.error (("boom").toList)

def witIpr : Option Resource := Option.some witRes3

def witSubj : Str := ("математика").toList

theorem witRm_urls : ∀ rs, witRm = Except.ok rs → ∀ r ∈ rs, r.url ≠ [] := by
  intro rs h
  injection h with h
  subst h
  intro r hr
  rw [List.mem_singleton] at hr
  subst hr
  decide

theorem witUr_urls : ∀ rs, witUr = Except.ok rs → ∀ r ∈ rs, r.url ≠ [] := by
  intro rs h
  exact absurd h (by simp [witUr])

theorem witIpr_urls : ∀ r, witIpr = Option.some r → r.url ≠ [] := by
  intro r h
  injection h with h
  subst h
  decide

theorem resource_record_invariants_witness :
    (∀ rs, witRm = Except.ok rs → ∀ r ∈ rs, r.url ≠ []) ∧
    (∀ rs, witUr = Except.ok rs → ∀ r ∈ rs, r.url ≠ []) ∧
    (∀ r, witIpr = Option.some r → r.url ≠ []) ∧
    (((fetch_links_for_subject witRm witUr witIpr witSubj).resources.map
        Resource.url).Nodup ∧
      (fetch_links_for_subject witRm witUr witIpr witSubj).links =
        (fetch_links_for_subject witRm witUr witIpr witSubj).resources.map
          Resource.url ∧
      ((fetch_links_for_subject witRm witUr witIpr witSubj).primary_link =
          Option.none ∨
        ∃ u, (fetch_links_for_subject witRm witUr witIpr witSubj).primary_link =
            Option.some u ∧
          u ∈ (fetch_links_for_subject witRm witUr witIpr witSubj).links)) :=
  ⟨witRm_urls, witUr_urls, witIpr_urls,
    resource_record_invariants witRm witUr witIpr witSubj
      witRm_urls witUr_urls witIpr_urls⟩

/-- C1 counterexample: for the subject "математика" (no static override),
with RMЭБ — the first source consulted — returning a candidate with URL
"u1" and Юрайт returning a candidate with URL "u2", the finalized record's
`primaryLink` is "u2", not the URL "u1" contributed by the first source
that yielded a candidate: the Юрайт stage (app.py:1908) overwrites
`primary_link` unconditionally. -/
theorem primary_link_counterexample :
    (fetch_links_for_subject (Except.ok [witRes1]) (Except.ok [witRes2])
        Option.none witSubj).primary_link = Option.some (("u2").toList) ∧
    (fetch_links_for_subject (Except.ok [witRes1]) (Except.ok [witRes2])
        Option.none witSubj).primary_link ≠ Option.some (("u1").toList) := by
  exact ⟨by decide, by decide⟩

/-- C1 amended: `primary_link` of a record resolved through the network
path is the first Юрайт candidate's URL whenever Юрайт yielded candidates
(its stage overwrites the field unconditionally, app.py:1908); otherwise
it is the first RMЭБ candidate's URL if RMЭБ yielded, otherwise the
IPRbooks URL if IPRbooks yielded, otherwise null — RMЭБ and IPRbooks set
the field only when it is still unset (app.py:1889, 1930).  Candidates
from later sources are still appended to `resources`. -/
theorem primary_link_characterization (rm ur : Except Str (List Resource))
    (ipr : Option Resource) (subject : Str)
    (hnorule : matchedRule (normalize_subject subject) = Option.none)
    (hrm : ∀ rs, rm = Except.ok rs → ∀ r ∈ rs, r.url ≠ [])
    (hur : ∀ rs, ur = Except.ok rs → ∀ r ∈ rs, r.url ≠ []) :
    (fetch_links_for_subject rm ur ipr subject).primary_link =
      (match ur with
      | Except.ok (r :: _) => Option.some r.url
      | _ =>
        match rm with
        | Except.ok (r :: _) => Option.some r.url
        | _ =>
          match ipr with
          | Option.some r => Option.some r.url
          | Option.none => Option.none) := by
  unfold fetch_links_for_subject
  rw [hnorule]
  have hfin : ∀ i : Info, (finalizeInfo i).primary_link = i.primary_link := by
    intro i
    unfold finalizeInfo
    dsimp only
    split <;> rfl
  dsimp only
  rw [hfin]
  cases ur with
  | ok l =>
    cases l with
    | cons u us =>
      have hu : u.url ≠ [] := hur _ rfl u (List.mem_cons_self _ _)
      cases ipr with
      | none => simp [applyIpr, applyUrait]
      | some r => simp [applyIpr, applyUrait, pyOrOpt, hu]
    | nil =>
      cases rm with
      | ok l2 =>
        cases l2 with
        | cons m ms =>
          have hm : m.url ≠ [] := hrm _ rfl m (List.mem_cons_self _ _)
          cases ipr with
          | none => simp [applyIpr, applyUrait, applyRmebrk, defaultInfo, pyOrOpt]
          | some r => simp [applyIpr, applyUrait, applyRmebrk, defaultInfo, pyOrOpt, hm]
        | nil =>
          cases ipr with
          | none => simp [applyIpr, applyUrait, applyRmebrk, defaultInfo]
          | some r => simp [applyIpr, applyUrait, applyRmebrk, defaultInfo, pyOrOpt]
      | error e2 =>
        cases ipr with
        | none => simp [applyIpr, applyUrait, applyRmebrk, defaultInfo]
        | some r => simp [applyIpr, applyUrait, applyRmebrk, defaultInfo, pyOrOpt]
  | error e =>
    cases rm with
    | ok l2 =>
      cases l2 with
      | cons m ms =>
        have hm : m.url ≠ [] := hrm _ rfl m (List.mem_cons_self _ _)
        cases ipr with
        | none => simp [applyIpr, applyUrait, applyRmebrk, defaultInfo, pyOrOpt]
        | some r => simp [applyIpr, applyUrait, applyRmebrk, defaultInfo, pyOrOpt, hm]
      | nil =>
        cases ipr with
        | none => simp [applyIpr, applyUrait, applyRmebrk, defaultInfo]
        | some r => simp [applyIpr, applyUrait, applyRmebrk, defaultInfo, pyOrOpt]
    | error e2 =>
      cases ipr with
      | none => simp [applyIpr, applyUrait, applyRmebrk, defaultInfo]
      | some r => simp [applyIpr, applyUrait, applyRmebrk, defaultInfo, pyOrOpt]

theorem primary_link_characterization_witness :
    matchedRule (normalize_subject witSubj) = Option.none ∧
    (∀ rs, witRm = Except.ok rs → ∀ r ∈ rs, r.url ≠ []) ∧
    (∀ rs, (Except.ok [witRes2] : Except Str (List Resource)) = Except.ok rs →
      ∀ r ∈ rs, r.url ≠ []) ∧
    (fetch_links_for_subject witRm (Except.ok [witRes2]) Option.none
        witSubj).primary_link =
      (match (Except.ok [witRes2] : Except Str (List Resource)) with
      | Except.ok (r :: _) => Option.some r.url
      | _ =>
        match witRm with
        | Except.ok (r :: _) => Option.some r.url
        | _ =>
          match (Option.none : Option Resource) with
          | Option.some r => Option.some r.url
          | Option.none => Option.none) := by
  have h1 : matchedRule (normalize_subject witSubj) = Option.none := by decide
  have h3 : ∀ rs, (Except.ok [witRes2] : Except Str (List Resource)) =
      Except.ok rs → ∀ r ∈ rs, r.url ≠ [] := by
    intro rs h
    injection h with h
    subst h
    intro r hr
    rw [List.mem_singleton] at hr
    subst hr
    decide
  exact ⟨h1, witRm_urls, h3,
    primary_link_characterization witRm (Except.ok [witRes2]) Option.none
      witSubj h1 witRm_urls h3⟩

theorem foldl_linkStep_payload (subject : Str) :
    ∀ (links : List Str) (st : MState),
      (links.foldl (linkStep subject) st).payload = st.payload := by
  intro links
  induction links with
  | nil => intro st; rfl
  | cons l ls ih =>
    intro st
    rw [List.foldl_cons, ih]
    unfold linkStep
    split
    · rfl
    · rfl

theorem process_single_payload (s0 : Sheet) (lr : Str → Option Info)
    (startRow : Nat) (subject : Str) :
    (process_excel_file s0 [subject] lr startRow).payload =
      [payloadEntry subject (lr subject)] := by
  unfold process_excel_file
  dsimp only
  rw [List.foldl_cons, List.foldl_nil]
  unfold subjectStep
  dsimp only
  rw [foldl_linkStep_payload]
  rfl

/-- C2 counterexample: for the subject "математика" with all three sources
returning zero candidates and none raising, the record reported by the
merge run has `status = "warning"`, not `"error"` as the claim states (the
initial status `"warning"` of app.py:1850 is never changed when no source
yields and none raises); the note is filled in by the merge reporting. -/
theorem zero_candidates_counterexample :
    (process_excel_file emptySheetW [witSubj]
      (fun s => if s = witSubj then
        Option.some (fetch_links_for_subject (Except.ok []) (Except.ok [])
          Option.none witSubj) else Option.none) 1).payload =
      [{ subject := witSubj, status := ("warning").toList,
         primary_link := Option.none, links := [], resources := [],
         note := ("Требуется выбрать книгу вручную").toList }] ∧
    (("warning").toList : Str) ≠ ("error").toList := by
  constructor
  · rw [process_single_payload]
    decide
  · decide

/-- C2 amended: for a subject matching no static override, when all three
sources return zero candidates and none raises, the finalized record has
`status = "warning"` (not `"error"`), empty `links`, empty `resources`, a
null `primaryLink` and an empty note; the merge reporting
(app.py:2287-2288) then fills the note of such a warning record with
"Требуется выбрать книгу вручную", so the reported record has status
`warning`, no links, and a non-empty note. -/
theorem zero_candidates_amended (subject : Str) (s0 : Sheet) (startRow : Nat)
    (hnorule : matchedRule (normalize_subject subject) = Option.none) :
    fetch_links_for_subject (Except.ok []) (Except.ok []) Option.none subject =
      { links := [], primary_link := Option.none, status := ("warning").toList,
        note := [], resources := [] } ∧
    (process_excel_file s0 [subject]
        (fun _ => Option.some (fetch_links_for_subject (Except.ok [])
          (Except.ok []) Option.none subject)) startRow).payload =
      [{ subject := subject, status := ("warning").toList,
         primary_link := Option.none, links := [], resources := [],
         note := ("Требуется выбрать книгу вручную").toList }] := by
  have h1 : fetch_links_for_subject (Except.ok []) (Except.ok [])
      Option.none subject =
      { links := [], primary_link := Option.none, status := ("warning").toList,
        note := [], resources := [] } := by
    unfold fetch_links_for_subject
    rw [hnorule]
    rfl
  refine ⟨h1, ?_⟩
  rw [process_single_payload, h1]
  rfl

theorem zero_candidates_amended_witness :
    matchedRule (normalize_subject witSubj) = Option.none ∧
    (fetch_links_for_subject (Except.ok []) (Except.ok []) Option.none witSubj =
      { links := [], primary_link := Option.none, status := ("warning").toList,
        note := [], resources := [] } ∧
    (process_excel_file emptySheetW [witSubj]
        (fun _ => Option.some (fetch_links_for_subject (Except.ok [])
          (Except.ok []) Option.none witSubj)) 1).payload =
      [{ subject := witSubj, status := ("warning").toList,
         primary_link := Option.none, links := [], resources := [],
         note := ("Требуется выбрать книгу вручную").toList }]) := by
  have h1 : matchedRule (normalize_subject witSubj) = Option.none := by decide
  exact ⟨h1, zero_candidates_amended witSubj emptySheetW 1 h1⟩

set_option maxRecDepth 16384 in
/-- C6: for any subject whose normalized text contains both override
tokens "физ" and "культур", `fetch_links_for_subject` returns exactly the
two preconfigured resources of the static rule, with `primaryLink` equal
to the first rule resource's URL, `status` taken from that first resource
("success") and its note; the result does not depend on the three adapter
arguments, which are therefore never consulted (the Python code returns at
app.py:1878 before any network call). -/
theorem static_override_rule (rm ur : Except Str (List Resource))
    (ipr : Option Resource) (subject : Str)
    (h1 : pyContains (normalize_subject subject) (("физ").toList) = true)
    (h2 : pyContains (normalize_subject subject) (("культур").toList) = true) :
    fetch_links_for_subject rm ur ipr subject =
      { links := [("https://www.iprbookshop.ru/147933.html").toList,
          ("https://rmebrk.kz/book/1177773").toList],
        primary_link :=
          Option.some (("https://www.iprbookshop.ru/147933.html").toList),
        status := ("success").toList,
        note := ("Учебное пособие IPRbooks").toList,
        resources := [fizRes1, fizRes2] } := by
  have hm : matchedRule (normalize_subject subject) = Option.some ruleFiz := by
    unfold matchedRule KNOWN_RESOURCE_RULES
    rw [List.find?_cons_of_pos]
    show (ruleFiz.contains.all fun tok =>
      pyContains (normalize_subject subject) tok) = true
    simp only [ruleFiz, List.all_cons, List.all_nil, h1, h2]
    rfl
  unfold fetch_links_for_subject
  rw [hm]
  dsimp only
  decide

set_option maxRecDepth 16384 in
theorem static_override_rule_witness :
    pyContains (normalize_subject (("Физическая культура").toList))
      (("физ").toList) = true ∧
    pyContains (normalize_subject (("Физическая культура").toList))
      (("культур").toList) = true ∧
    fetch_links_for_subject witRm witUr witIpr
        (("Физическая культура").toList) =
      { links := [("https://www.iprbookshop.ru/147933.html").toList,
          ("https://rmebrk.kz/book/1177773").toList],
        primary_link :=
          Option.some (("https://www.iprbookshop.ru/147933.html").toList),
        status := ("success").toList,
        note := ("Учебное пособие IPRbooks").toList,
        resources := [fizRes1, fizRes2] } :=
  ⟨by decide, by decide,
    static_override_rule witRm witUr witIpr (("Физическая культура").toList)
      (by decide) (by decide)⟩

theorem lookupOutcome_eq_of_mem (l : List (Str × Except Str Info)) (s : Str)
    (v : Except Str Info) (hnd : (l.map Prod.fst).Nodup) (hmem : (s, v) ∈ l) :
    lookupOutcome l s = Option.some v := by
  induction l with
  | nil => simp at hmem
  | cons p rest ih =>
    rw [List.map_cons, List.nodup_cons] at hnd
    obtain ⟨k, w⟩ := p
    unfold lookupOutcome
    by_cases hk : k = s
    · subst hk
      rw [if_pos rfl]
      rcases List.mem_cons.mp hmem with h | h
      · have hv : v = w := by simpa using congrArg Prod.snd h
        rw [hv]
      · exact absurd (List.mem_map_of_mem Prod.fst h) hnd.1
    · rw [if_neg hk]
      rcases List.mem_cons.mp hmem with h | h
      · exact absurd (congrArg Prod.fst h).symm hk
      · exact ih hnd.2 h

/-- C7: the stream emits one `subject_done` event per pending subject, and
the subject order across events is the task-submission order (the
extraction order of `pending_subjects`): `future_to_subject` is a dict
built in submission order, the harvest loop iterates it in insertion order
and `future.result()` blocks until that subject's own task completes, so
for any completion order — any permutation `completions` of the
per-subject outcomes — the emitted event list is the submission-order
event list, and its subjects are exactly `pending` in order. -/
theorem stream_submission_order (pending : List Str)
    (outcome : Str → Except Str Info)
    (completions : List (Str × Except Str Info))
    (hnd : pending.Nodup)
    (hperm : completions.Perm (pending.map fun s => (s, outcome s))) :
    subjectDoneEvents pending completions =
      subjectDoneEvents pending (pending.map fun s => (s, outcome s)) ∧
    (subjectDoneEvents pending completions).map Prod.fst = pending := by
  have hcanon : (pending.map fun s => (s, outcome s)).map Prod.fst = pending := by
    rw [List.map_map]
    exact List.map_id _
  have hkeys : (completions.map Prod.fst).Nodup := by
    have h1 := hperm.map Prod.fst
    rw [hcanon] at h1
    exact h1.nodup_iff.mpr hnd
  have hkeys2 : ((pending.map fun s => (s, outcome s)).map Prod.fst).Nodup := by
    rw [hcanon]
    exact hnd
  have hlook : ∀ s ∈ pending,
      lookupOutcome completions s = Option.some (outcome s) := by
    intro s hs
    exact lookupOutcome_eq_of_mem _ _ _ hkeys
      (hperm.mem_iff.mpr (List.mem_map_of_mem _ hs))
  have hlook2 : ∀ s ∈ pending,
      lookupOutcome (pending.map fun s => (s, outcome s)) s =
        Option.some (outcome s) := by
    intro s hs
    exact lookupOutcome_eq_of_mem _ _ _ hkeys2 (List.mem_map_of_mem _ hs)
  constructor
  · unfold subjectDoneEvents
    apply List.map_congr_left
    intro s hs
    rw [hlook s hs, hlook2 s hs]
  · unfold subjectDoneEvents
    rw [List.map_map]
    have hid : ∀ s ∈ pending,
        (Prod.fst ∘ fun subj =>
          (match lookupOutcome completions subj with
          | Option.some (Except.ok info) => (subj, info)
          | Option.some (Except.error msg) => (subj, fallbackInfo msg)
          | Option.none => (subj, fallbackInfo []))) s = s := by
      intro s _
      show Prod.fst (match lookupOutcome completions s with
        | Option.some (Except.ok info) => (s, info)
        | Option.some (Except.error msg) => (s, fallbackInfo msg)
        | Option.none => (s, fallbackInfo [])) = s
      cases lookupOutcome completions s with
      | none => rfl
      | some v =>
        cases v with
        | ok i => rfl
        | error m => rfl
    rw [List.map_congr_left hid]
    simp

/-- Concrete stream data: two subjects whose tasks complete in the
opposite order from submission. -/
def witPending : List Str := [("a").toList, ("b").toList]

def witOutcome : Str → Except Str Info := fun s =>
  if s = ("a").toList then Except.ok witInfo
  else Except.error (("x").toList)

def witCompletions : List (Str × Except Str Info) :=
  [(("b").toList, Except.error (("x").toList)),
   (("a").toList, Except.ok witInfo)]

theorem stream_submission_order_witness :
    witPending.Nodup ∧
    witCompletions.Perm (witPending.map fun s => (s, witOutcome s)) ∧
    (subjectDoneEvents witPending witCompletions =
      subjectDoneEvents witPending (witPending.map fun s => (s, witOutcome s)) ∧
    (subjectDoneEvents witPending witCompletions).map Prod.fst = witPending) := by
  have h1 : witPending.Nodup := by decide
  have h2 : witCompletions.Perm (witPending.map fun s => (s, witOutcome s)) := by
    have : witPending.map (fun s => (s, witOutcome s)) =
        [(("a").toList, Except.ok witInfo),
         (("b").toList, Except.error (("x").toList))] := by rfl
    rw [this]
    exact List.Perm.swap _ _ _
  exact ⟨h1, h2, stream_submission_order witPending witOutcome witCompletions h1 h2⟩

theorem ite_penalty_lt (c1 c2 : Prop) [Decidable c1] [Decidable c2] (x : Int) :
    (if c2 then x - 2 else x) < (if c1 then x + 10 - 2 else x + 10) := by
  split_ifs <;> omega

/-- C8: for the IPRbooks candidate score, if two titles agree on every
other scoring feature (count of matched query tokens, first-token match,
count of matched long tokens, the unrelated-word and automation-word
penalty conditions, and the leading-letter condition) and the lowercased
query is a substring of lowercased T1 but not of lowercased T2, then T1
scores strictly higher than T2. -/
theorem score_substring_dominates (q T1 T2 : Str)
    (hm : matchedWordsCount q T1 = matchedWordsCount q T2)
    (hf : firstWordHit q T1 = firstWordHit q T2)
    (hl : longHitsCount q T1 = longHitsCount q T2)
    (hu : unrelatedPenaltyFlag q T1 = unrelatedPenaltyFlag q T2)
    (ha : automationPenaltyFlag q T1 = automationPenaltyFlag q T2)
    (hA : startsWithA T1 = startsWithA T2)
    (h1 : pyContains (pyLower T1) (pyLower q) = true)
    (h2 : pyContains (pyLower T2) (pyLower q) = false) :
    iprbookshop_score q T2 < iprbookshop_score q T1 := by
  have hb1 : substrBonus q T1 = 10 := by
    unfold substrBonus
    rw [h1]
    rfl
  have hb2 : substrBonus q T2 = 0 := by
    unfold substrBonus
    rw [h2]
    rfl
  have hmb : matchedBonus q T1 = matchedBonus q T2 := by
    unfold matchedBonus
    rw [hm]
  have hfb : firstBonus q T1 = firstBonus q T2 := by
    unfold firstBonus
    rw [hf]
  have hup : unrelatedPenalty q T1 = unrelatedPenalty q T2 := by
    unfold unrelatedPenalty
    rw [hu]
  have hap : automationPenalty q T1 = automationPenalty q T2 := by
    unfold automationPenalty
    rw [ha]
  have hbase : iprbookshop_base q T1 = iprbookshop_base q T2 + 10 := by
    unfold iprbookshop_base
    rw [hb1, hb2, hmb, hfb, hl, hup, hap]
    omega
  unfold iprbookshop_score
  rw [hbase, hA]
  exact ite_penalty_lt _ _ (iprbookshop_base q T2)

theorem score_substring_dominates_witness :
    matchedWordsCount (("теория игр").toList) (("теория игр основы").toList) =
      matchedWordsCount (("теория игр").toList) (("игр теория").toList) ∧
    firstWordHit (("теория игр").toList) (("теория игр основы").toList) =
      firstWordHit (("теория игр").toList) (("игр теория").toList) ∧
    longHitsCount (("теория игр").toList) (("теория игр основы").toList) =
      longHitsCount (("теория игр").toList) (("игр теория").toList) ∧
    unrelatedPenaltyFlag (("теория игр").toList) (("теория игр основы").toList) =
      unrelatedPenaltyFlag (("теория игр").toList) (("игр теория").toList) ∧
    automationPenaltyFlag (("теория игр").toList) (("теория игр основы").toList) =
      automationPenaltyFlag (("теория игр").toList) (("игр теория").toList) ∧
    startsWithA (("теория игр основы").toList) = startsWithA (("игр теория").toList) ∧
    pyContains (pyLower (("теория игр основы").toList))
      (pyLower (("теория игр").toList)) = true ∧
    pyContains (pyLower (("игр теория").toList))
      (pyLower (("теория игр").toList)) = false ∧
    iprbookshop_score (("теория игр").toList) (("игр теория").toList) <
      iprbookshop_score (("теория игр").toList) (("теория игр основы").toList) :=
  ⟨by decide, by decide, by decide, by decide, by decide, by decide, by decide,
    by decide,
    score_substring_dominates (("теория игр").toList)
      (("теория игр основы").toList) (("игр теория").toList)
      (by decide) (by decide) (by decide) (by decide) (by decide) (by decide)
      (by decide) (by decide)⟩

/-- The stripped text after the last `" / "` separator of the merged cell
text (the part the extractor keeps for a bilingual row). -/
def afterLastSep (c d : Str) : Str :=
  pyStrip ((splitSub sepSlash (c ++ sepSlash ++ d)).getLastD [])

/-- C9: for a curriculum row whose two text cells are both non-empty
(already stripped, as `str(...).strip()` leaves them) — so the merged text
contains `" / "` — `extract_subjects_from_up33` keeps exactly the stripped
text after the last separator as the extracted subject, provided the row
passes the header-token filter and the kept text passes the two blocklist
filters and the length filters. -/
theorem bilingual_row_keeps_russian_part (c d : Str)
    (hc : pyStrip c = c) (hc0 : c ≠ []) (hd : pyStrip d = d) (hd0 : d ≠ [])
    (hhead : header_tokens.any (fun tok =>
      pyContains (pyStrip (pyLower c ++ [' '] ++ pyLower d)) tok) = false)
    (hexcl : SUBJECT_EXCLUDE_SUBSTRINGS.any (fun b =>
      pyContains (pyLower (afterLastSep c d)) b) = false)
    (hban : BANNED_SUBSTRINGS.any (fun b =>
      pyContains (pyLower (afterLastSep c d)) b) = false)
    (hlen : ¬(160 < (pyLower (afterLastSep c d)).length ∨
      20 < (pySplitWs (pyLower (afterLastSep c d))).length)) :
    extract_subjects_from_up33 [(Option.some c, Option.some d)] =
      [afterLastSep c d] := by
  have hne : c ++ sepSlash ++ d ≠ [] := by
    intro h0
    exact hc0 (List.append_eq_nil.mp (List.append_eq_nil.mp h0).1).1
  have hlastc : pyIsSpace (lastCharD (c ++ sepSlash ++ d)) = false := by
    rw [lastCharD_append (c ++ sepSlash) d hd0]
    exact stripped_last_not_space d hd hd0
  have hM : afterLastSep c d ≠ [] :=
    splitSub_lastPart_of_stripped (c ++ sepSlash ++ d) hne hlastc
  have hmerge : mergeCells c d = c ++ sepSlash ++ d := by
    unfold mergeCells
    rw [if_pos ⟨hc0, hd0⟩]
  have hcont : pyContains (c ++ sepSlash ++ d) sepSlash = true := by
    rw [List.append_assoc]
    exact pyContains_append_left c (sepSlash ++ d) sepSlash
      (pyContains_self_append sepSlash d)
  have hpr : processRow (Option.some c) (Option.some d) =
      Option.some (afterLastSep c d) := by
    unfold processRow
    dsimp only
    rw [hc, hd]
    rw [if_neg (by intro h0; exact hc0 h0.1)]
    rw [if_neg (by rw [hhead]; exact Bool.false_ne_true)]
    rw [hmerge]
    rw [if_pos hcont]
    rw [show pyStrip ((splitSub sepSlash (c ++ sepSlash ++ d)).getLastD []) =
      afterLastSep c d from rfl]
    rw [if_pos hM]
    rw [if_neg (by rw [hexcl]; exact Bool.false_ne_true)]
    rw [if_neg (by rw [hban]; exact Bool.false_ne_true)]
    rw [if_neg hlen]
  unfold extract_subjects_from_up33 extractRows
  rw [hpr]
  dsimp only
  rw [if_pos ⟨hM, List.not_mem_nil _⟩]
  rfl

theorem bilingual_row_keeps_russian_part_witness :
    pyStrip (("Mathematics I").toList) = ("Mathematics I").toList ∧
    (("Mathematics I").toList : Str) ≠ [] ∧
    pyStrip (("Математика I").toList) = ("Математика I").toList ∧
    (("Математика I").toList : Str) ≠ [] ∧
    (header_tokens.any (fun tok =>
      pyContains (pyStrip (pyLower (("Mathematics I").toList) ++ [' '] ++
        pyLower (("Математика I").toList))) tok) = false) ∧
    (SUBJECT_EXCLUDE_SUBSTRINGS.any (fun b =>
      pyContains (pyLower (afterLastSep (("Mathematics I").toList)
        (("Математика I").toList))) b) = false) ∧
    (BANNED_SUBSTRINGS.any (fun b =>
      pyContains (pyLower (afterLastSep (("Mathematics I").toList)
        (("Математика I").toList))) b) = false) ∧
    ¬(160 < (pyLower (afterLastSep (("Mathematics I").toList)
        (("Математика I").toList))).length ∨
      20 < (pySplitWs (pyLower (afterLastSep (("Mathematics I").toList)
        (("Математика I").toList)))).length) ∧
    afterLastSep (("Mathematics I").toList) (("Математика I").toList) =
      ("Математика I").toList ∧
    extract_subjects_from_up33
        [(Option.some (("Mathematics I").toList),
          Option.some (("Математика I").toList))] =
      [afterLastSep (("Mathematics I").toList) (("Математика I").toList)] :=
  ⟨by decide, by decide, by decide, by decide, by decide, by decide, by decide,
    by decide, by decide,
    bilingual_row_keeps_russian_part (("Mathematics I").toList)
      (("Математика I").toList) (by decide) (by decide) (by decide) (by decide)
      (by decide) (by decide) (by decide) (by decide)⟩
